import Mathlib

/-!
# NEC infrared remote decoder (`src/ir.c`)

A shallow embedding of the two interrupt handlers of `src/ir.c`
(`timer0_isr`, `externalIntr0_ISR`) and of the four LED helpers, followed by
theorems about the frame decoder.

Conventions of the embedding
* `uint8_t` objects are `Nat`; every C operation that can leave the 8-bit
  range is followed by an explicit `% 256`.
* `pulseCount` is a (signed) `char`; it is an `Int`, and `++pulseCount`
  wraps modulo 256 (`incrChar`).
* The special-function registers written by the handlers (`TH0`, `TL0`, `P2`)
  are fields of the state.
* A handler returns the new state together with the list of LED helpers it
  called, in call order.
-/

namespace NecIr

/-- The four LED helpers `up`, `left`, `right`, `down` of `src/ir.c`. -/
inductive Action where
  | up
  | left
  | right
  | down
  deriving DecidableEq, Repr

/-- A `uint8_t [4]` array (`bitPattern`, `newKey`). -/
structure Bytes4 where
  b0 : Nat
  b1 : Nat
  b2 : Nat
  b3 : Nat
  deriving DecidableEq, Repr

/-- Array read `a[i]`; the handler only reads indices 0..3. -/
def Bytes4.get (a : Bytes4) (i : Nat) : Nat :=
  match i with
  | 0 => a.b0
  | 1 => a.b1
  | 2 => a.b2
  | 3 => a.b3
  | _ => 0

/-- Array write `a[i] = v`; the handler only writes indices 0..3 (the data
branch is guarded by `0 <= pulseCount < 32`, so `pulseCount >> 3 <= 3`). -/
def Bytes4.set (a : Bytes4) (i : Nat) (v : Nat) : Bytes4 :=
  match i with
  | 0 => { a with b0 := v }
  | 1 => { a with b1 := v }
  | 2 => { a with b2 := v }
  | 3 => { a with b3 := v }
  | _ => a

/-- The all-zero array. -/
def Bytes4.zero : Bytes4 := ⟨0, 0, 0, 0⟩

/-- The globals of `src/ir.c` and the registers its handlers write. -/
structure State where
  bitPattern : Bytes4
  newKey : Bytes4
  timerValue : Nat
  msCount : Nat
  pulseCount : Int
  TH0 : Nat
  TL0 : Nat
  P2 : Nat
  deriving DecidableEq, Repr

/-- The state at power-on: all globals are zero-initialised. The registers
take their reset values (`TH0 = TL0 = 0`, `P2 = 0xFF`). -/
def powerOn : State :=
  { bitPattern := Bytes4.zero, newKey := Bytes4.zero, timerValue := 0,
    msCount := 0, pulseCount := 0, TH0 := 0, TL0 := 0, P2 := 0xFF }

/-- Every variable holds a value of its C type. -/
def State.inRange (s : State) : Prop :=
  s.bitPattern.b0 < 256 ∧ s.bitPattern.b1 < 256 ∧ s.bitPattern.b2 < 256 ∧
  s.bitPattern.b3 < 256 ∧ s.newKey.b0 < 256 ∧ s.newKey.b1 < 256 ∧
  s.newKey.b2 < 256 ∧ s.newKey.b3 < 256 ∧ s.timerValue < 256 ∧
  s.msCount < 256 ∧ -128 ≤ s.pulseCount ∧ s.pulseCount ≤ 127

instance (s : State) : Decidable s.inRange := by
  unfold State.inRange; infer_instance

/-- The statement `++pulseCount` on a signed 8-bit `char`: 127 wraps to -128. -/
def incrChar (p : Int) : Int := (p + 1 + 128) % 256 - 128

/-- Timer-0 handler, `timer0_isr` (lines 40-47): count a millisecond while
below 50, then reload the timer. -/
def timer0_isr (s : State) : State :=
  let s := if s.msCount < 50 then { s with msCount := (s.msCount + 1) % 256 } else s
  let s := { s with TH0 := 0xFC }
  { s with TL0 := 0x67 }

/-- The helper `up`: `P2 = ~1`. -/
def up (s : State) : State := { s with P2 := 0xFE }

/-- The helper `left`: `P2 = ~2`. -/
def left (s : State) : State := { s with P2 := 0xFD }

/-- The helper `right`: `P2 = ~4`. -/
def right (s : State) : State := { s with P2 := 0xFB }

/-- The helper `down`: `P2 = ~8`. -/
def down (s : State) : State := { s with P2 := 0xF7 }

/-- The body of the helper named by an `Action`. -/
def Action.run : Action → State → State
  | Action.up => NecIr.up
  | Action.left => NecIr.left
  | Action.right => NecIr.right
  | Action.down => NecIr.down

/-- The data-bit statement of lines 75-77 for a pulse count `p` with
`0 <= p < 32`:
`byteIdx = pulseCount >> 3; bitPos = 7 - (pulseCount & 7);
bitPattern[byteIdx] |= 1u << bitPos;` (`1u` is a 16-bit `unsigned int`). -/
def setDataBit (a : Bytes4) (p : Nat) : Bytes4 :=
  let byteIdx := (p >>> 3) % 256
  let bitPos := (7 - (p &&& 7)) % 256
  a.set byteIdx ((a.get byteIdx ||| ((1 <<< bitPos) % 65536)) % 256)

/-- The command decode of lines 90-93 on `newKey`: which helper, if any, is
called. -/
def decodeKey (k : Bytes4) : Option Action :=
  if k.b1 = 0xFF ∧ k.b2 = 0x18 ∧ k.b3 = 0xE7 then some Action.up
  else if k.b1 = 0xFF ∧ k.b2 = 0x10 ∧ k.b3 = 0xEF then some Action.left
  else if k.b1 = 0xFF ∧ k.b2 = 0x5A ∧ k.b3 = 0xA5 then some Action.right
  else if k.b1 = 0xFF ∧ k.b2 = 0x4A ∧ k.b3 = 0xB5 then some Action.down
  else none

/-- INT0 handler, `externalIntr0_ISR` (lines 56-95). Returns the new state and
the helpers called. -/
def externalIntr0_ISR (s : State) : State × List Action :=
  let s := { s with timerValue := s.msCount }
  let s := { s with msCount := 0 }
  let s := { s with TH0 := 0xFC }
  let s := { s with TL0 := 0x67 }
  let s := { s with pulseCount := incrChar s.pulseCount }
  if 50 ≤ s.timerValue then
    let s := { s with pulseCount := -2 }
    ({ s with bitPattern := Bytes4.zero }, [])
  else if 0 ≤ s.pulseCount ∧ s.pulseCount < 32 then
    if 2 ≤ s.timerValue then
      ({ s with bitPattern := setDataBit s.bitPattern s.pulseCount.toNat }, [])
    else (s, [])
  else if 32 ≤ s.pulseCount then
    let s := { s with newKey := s.bitPattern }
    let s := { s with pulseCount := 0 }
    match decodeKey s.newKey with
    | some a => (a.run s, [a])
    | none => (s, [])
  else (s, [])

/-- One edge event whose sampled elapsed time is `g`: the handler runs with
`msCount = g`. -/
def edge (g : Nat) (s : State) : State × List Action :=
  externalIntr0_ISR { s with msCount := g }

/-- A sequence of edge events with the given elapsed values, in order; the
helper calls are collected in call order. -/
def edges : List Nat → State → State × List Action
  | [], s => (s, [])
  | g :: gs, s =>
    let r := edge g s
    let r2 := edges gs r.1
    (r2.1, r.2 ++ r2.2)

/-- Apply `timer0_isr` `n` times. -/
def ticks : Nat → State → State
  | 0, s => s
  | n + 1, s => ticks n (timer0_isr s)

/-- The two interrupt sources: the 1 ms timer and the falling edge on INT0. -/
inductive Event where
  | tick
  | edge
  deriving DecidableEq, Repr

/-- One interrupt, run to completion. -/
def step (s : State) : Event → State × List Action
  | Event.tick => (timer0_isr s, [])
  | Event.edge => externalIntr0_ISR s

/-- A sequence of interrupts, each run to completion, with the helper calls
collected in call order. -/
def run : List Event → State → State × List Action
  | [], s => (s, [])
  | ev :: evs, s =>
    let r := step s ev
    let r2 := run evs r.1
    (r2.1, r.2 ++ r2.2)

/-- The command table of the header comment (lines 19-25) and of the decode
chain (lines 90-93): bytes 1..3 and the helper called. -/
def commandTable : List (Nat × Nat × Nat × Action) :=
  [(0xFF, 0x18, 0xE7, Action.up), (0xFF, 0x10, 0xEF, Action.left),
   (0xFF, 0x5A, 0xA5, Action.right), (0xFF, 0x4A, 0xB5, Action.down)]

/-- Bit `i` (0 = first received) of the accumulator: bit `7 - i % 8` of byte
`i / 8`. -/
def bitAt (a : Bytes4) (i : Nat) : Bool := (a.get (i / 8)).testBit (7 - i % 8)

/-- The accumulator read as one 32-bit word, byte 0 most significant. -/
def word32 (a : Bytes4) : Nat := a.b0 * 2 ^ 24 + a.b1 * 2 ^ 16 + a.b2 * 2 ^ 8 + a.b3

/-- The elapsed values `gs` encode the bytes `b0 b1 b2 b3` MSB-first: gap `i`
is at least 2 exactly when bit `7 - i % 8` of byte `i / 8` is 1. -/
def Encodes (gs : List Nat) (b : Bytes4) : Prop :=
  ∀ i, i < 32 → (2 ≤ gs.getD i 0 ↔ bitAt b i = true)

/-- A state in the middle of a frame, with a stale key and a partly filled
accumulator, on which a gap of 50 ms has just elapsed. -/
def midFrame : State :=
  { bitPattern := ⟨0x12, 0x34, 0x56, 0x78⟩, newKey := ⟨0, 0xFF, 0x10, 0xEF⟩,
    timerValue := 1, msCount := 50, pulseCount := 17, TH0 := 0xFC, TL0 := 0x67, P2 := 0xFD }

/-- A state one edge before completion whose accumulator holds the code of
key 2 (`0x00FF18E7`), 1 ms after the last edge. -/
def frameReady : State :=
  { bitPattern := ⟨0, 0xFF, 0x18, 0xE7⟩, newKey := Bytes4.zero, timerValue := 1,
    msCount := 1, pulseCount := 31, TH0 := 0xFC, TL0 := 0x67, P2 := 0xFF }

/-- A state one edge before completion whose accumulator matches no table
entry. -/
def frameUnmatched : State :=
  { bitPattern := ⟨0, 0xFF, 0x19, 0xE7⟩, newKey := Bytes4.zero, timerValue := 1,
    msCount := 1, pulseCount := 31, TH0 := 0xFC, TL0 := 0x67, P2 := 0xFF }

/-- A state one edge before completion, with the code of key 4 collected. -/
def frameStale : State :=
  { bitPattern := ⟨0, 0xFF, 0x10, 0xEF⟩, newKey := Bytes4.zero, timerValue := 1,
    msCount := 1, pulseCount := 31, TH0 := 0xFC, TL0 := 0x67, P2 := 0xFF }

/-- The post-header state reached from power-on: start marker, then the one
discarded edge. -/
def postHeader : State :=
  { bitPattern := Bytes4.zero, newKey := Bytes4.zero, timerValue := 13,
    msCount := 0, pulseCount := -1, TH0 := 0xFC, TL0 := 0x67, P2 := 0xFF }

/-- Gaps for the bit pattern `11111111 00011000 11100111 00000000`: 2 ms for a
1 bit, 0 ms for a 0 bit. -/
def gapsFF18E7xx : List Nat :=
  [2, 2, 2, 2, 2, 2, 2, 2,  0, 0, 0, 2, 2, 0, 0, 0,
   2, 2, 2, 0, 0, 2, 2, 2,  0, 0, 0, 0, 0, 0, 0, 0]

/-- Gaps for the bytes `00 FF 18 E7` (key 2): 3 ms for a 1 bit, 1 ms for a 0
bit. -/
def gaps00FF18E7 : List Nat :=
  [1, 1, 1, 1, 1, 1, 1, 1,  3, 3, 3, 3, 3, 3, 3, 3,
   1, 1, 1, 3, 3, 1, 1, 1,  3, 3, 3, 1, 1, 3, 3, 3]

/-- Gaps for the bytes `00 FF 10 EF` (key 4): 2 ms for a 1 bit, 1 ms for a 0
bit. -/
def gaps00FF10EF : List Nat :=
  [1, 1, 1, 1, 1, 1, 1, 1,  2, 2, 2, 2, 2, 2, 2, 2,
   1, 1, 1, 2, 1, 1, 1, 1,  2, 2, 2, 1, 2, 2, 2, 2]

/-- The last 24 elapsed values of `gs` encode the bytes `c1 c2 c3`; the first
eight are free. -/
def EncodesTail (gs : List Nat) (c1 c2 c3 : Nat) : Prop :=
  ∀ i, i < 32 → 8 ≤ i → (2 ≤ gs.getD i 0 ↔ bitAt ⟨0, c1, c2, c3⟩ i = true)

instance (gs : List Nat) (c1 c2 c3 : Nat) : Decidable (EncodesTail gs c1 c2 c3) := by
  unfold EncodesTail; infer_instance

instance (gs : List Nat) (b : Bytes4) : Decidable (Encodes gs b) := by
  unfold Encodes; infer_instance

/-- The values that `++pulseCount` produces at the successive edges of a run
with the given elapsed values. -/
def incrementedIndices : List Nat → State → List Int
  | [], _ => []
  | g :: gs, s => incrChar s.pulseCount :: incrementedIndices gs (edge g s).1

/-- Two states agree on the variables the handlers read before writing them:
`pulseCount`, `bitPattern` and `msCount`. -/
def Agree (s t : State) : Prop :=
  s.pulseCount = t.pulseCount ∧ s.bitPattern = t.bitPattern ∧ s.msCount = t.msCount

/-- The ranges kept by every handler from power-on. -/
def InRanges (s : State) : Prop :=
  s.msCount ≤ 50 ∧ s.timerValue ≤ 50 ∧ -2 ≤ s.pulseCount ∧ s.pulseCount ≤ 31

instance (s : State) : Decidable (InRanges s) := by
  unfold InRanges; infer_instance

/-- A stalled frame: 20 data edges collected, 7 ms since the last edge. -/
def stalled : State :=
  { bitPattern := ⟨0, 0xFF, 0x10, 0⟩, newKey := ⟨0, 0xFF, 0x18, 0xE7⟩, timerValue := 2,
    msCount := 7, pulseCount := 19, TH0 := 0xFC, TL0 := 0x67, P2 := 0xFE }

/-- A fully collected frame (key 6) on which 50 ms have elapsed before the
next edge. -/
def framePending : State :=
  { bitPattern := ⟨0, 0xFF, 0x5A, 0xA5⟩, newKey := Bytes4.zero, timerValue := 1,
    msCount := 50, pulseCount := 31, TH0 := 0xFC, TL0 := 0x67, P2 := 0xFF }

/-- Byte `c` with bit `q` inverted. -/
def flipBit (c q : Nat) : Nat := c ^^^ (1 <<< q)

/-- The three command bytes with one bit inverted: bit `j` of the 24, counted
MSB-first from the top bit of byte 1. -/
def flipCode (c1 c2 c3 j : Nat) : Nat × Nat × Nat :=
  if j < 8 then (flipBit c1 (7 - j), c2, c3)
  else if j < 16 then (c1, flipBit c2 (15 - j), c3)
  else (c1, c2, flipBit c3 (23 - j))

/-- The gaps of `gaps00FF10EF` with the first one corrupted from 1 ms to 2 ms:
they encode `80 FF 10 EF`. -/
def gaps80FF10EF : List Nat :=
  [2, 1, 1, 1, 1, 1, 1, 1,  2, 2, 2, 2, 2, 2, 2, 2,
   1, 1, 1, 2, 1, 1, 1, 1,  2, 2, 2, 1, 2, 2, 2, 2]

/-- The gaps of `gaps00FF10EF` with gap 19 corrupted from 2 ms to 1 ms: they
encode `00 FF 00 EF`. -/
def gaps00FF00EF : List Nat :=
  [1, 1, 1, 1, 1, 1, 1, 1,  2, 2, 2, 2, 2, 2, 2, 2,
   1, 1, 1, 1, 1, 1, 1, 1,  2, 2, 2, 1, 2, 2, 2, 2]

/-- A state about to receive data bit 20 after a gap of exactly 2 ms. -/
def dataEdgeTwo : State :=
  { bitPattern := ⟨0, 0xFF, 0x10, 0⟩, newKey := ⟨0, 0xFF, 0x18, 0xE7⟩, timerValue := 1,
    msCount := 2, pulseCount := 19, TH0 := 0xFC, TL0 := 0x67, P2 := 0xFE }

/-- The same state after a gap of exactly 1 ms. -/
def dataEdgeOne : State :=
  { bitPattern := ⟨0, 0xFF, 0x10, 0⟩, newKey := ⟨0, 0xFF, 0x18, 0xE7⟩, timerValue := 1,
    msCount := 1, pulseCount := 19, TH0 := 0xFC, TL0 := 0x67, P2 := 0xFE }

/-- A state one edge before completion whose accumulator holds the code of
key 8 with the lowest bit of byte 3 inverted. -/
def frameNoisy : State :=
  { bitPattern := ⟨0, 0xFF, 0x4A, 0xB4⟩, newKey := Bytes4.zero, timerValue := 1,
    msCount := 1, pulseCount := 31, TH0 := 0xFC, TL0 := 0x67, P2 := 0xFF }

/-! ## Single events -/

theorem incrChar_of_range (p : Int) (h1 : -128 ≤ p) (h2 : p < 127) : incrChar p = p + 1 := by
  unfold incrChar; omega

theorem timer0_isr_msCount (s : State) :
    (timer0_isr s).msCount = if s.msCount < 50 then s.msCount + 1 else s.msCount := by
  unfold timer0_isr
  by_cases h : s.msCount < 50
  · have : (s.msCount + 1) % 256 = s.msCount + 1 := Nat.mod_eq_of_lt (by omega)
    simp [h, this]
  · simp [h]

theorem ticks_msCount (n : Nat) : ∀ s : State, s.msCount ≤ 50 →
    (ticks n s).msCount = min (s.msCount + n) 50 := by
  induction n with
  | zero => intro s h; simp [ticks, h]
  | succ n ih =>
    intro s h
    have hm := timer0_isr_msCount s
    have h2 : (timer0_isr s).msCount ≤ 50 := by
      rw [hm]; split <;> omega
    rw [ticks, ih _ h2, hm]
    split <;> omega

/-- The start-marker branch (lines 67-71). -/
theorem isr_marker (s : State) (h : 50 ≤ s.msCount) :
    externalIntr0_ISR s =
      ({ s with timerValue := s.msCount, msCount := 0, TH0 := 0xFC, TL0 := 0x67,
                pulseCount := -2, bitPattern := Bytes4.zero }, []) := by
  simp [externalIntr0_ISR, h]

/-- The data-bit branch (lines 73-79). -/
theorem isr_data (s : State) (h : s.msCount < 50)
    (h0 : 0 ≤ incrChar s.pulseCount) (h1 : incrChar s.pulseCount < 32) :
    externalIntr0_ISR s =
      ({ s with timerValue := s.msCount, msCount := 0, TH0 := 0xFC, TL0 := 0x67,
                pulseCount := incrChar s.pulseCount,
                bitPattern := if 2 ≤ s.msCount
                  then setDataBit s.bitPattern (incrChar s.pulseCount).toNat
                  else s.bitPattern }, []) := by
  have hn : ¬ 50 ≤ s.msCount := by omega
  by_cases h2 : 2 ≤ s.msCount <;> simp [externalIntr0_ISR, hn, h0, h1, h2]

/-- The end-of-frame branch (lines 81-94). -/
theorem isr_complete (s : State) (h : s.msCount < 50) (h1 : 32 ≤ incrChar s.pulseCount) :
    externalIntr0_ISR s =
      match decodeKey s.bitPattern with
      | some a =>
        (a.run { s with timerValue := s.msCount, msCount := 0, TH0 := 0xFC, TL0 := 0x67,
                        pulseCount := 0, newKey := s.bitPattern }, [a])
      | none =>
        ({ s with timerValue := s.msCount, msCount := 0, TH0 := 0xFC, TL0 := 0x67,
                  pulseCount := 0, newKey := s.bitPattern }, []) := by
  have hn : ¬ 50 ≤ s.msCount := by omega
  have h2 : ¬ incrChar s.pulseCount < 32 := by omega
  simp only [externalIntr0_ISR, hn, h1, h2, if_false, if_true, and_false]

/-- The header branch: an index below zero after the increment (no branch of
the chain is taken). -/
theorem isr_header (s : State) (h : s.msCount < 50) (h0 : incrChar s.pulseCount < 0) :
    externalIntr0_ISR s =
      ({ s with timerValue := s.msCount, msCount := 0, TH0 := 0xFC, TL0 := 0x67,
                pulseCount := incrChar s.pulseCount }, []) := by
  have hn : ¬ 50 ≤ s.msCount := by omega
  have h1 : ¬ 0 ≤ incrChar s.pulseCount := by omega
  have h2 : ¬ 32 ≤ incrChar s.pulseCount := by omega
  simp [externalIntr0_ISR, hn, h1, h2]

theorem Action.run_fields (a : Action) (s : State) :
    (a.run s).bitPattern = s.bitPattern ∧ (a.run s).newKey = s.newKey ∧
    (a.run s).timerValue = s.timerValue ∧ (a.run s).msCount = s.msCount ∧
    (a.run s).pulseCount = s.pulseCount := by
  cases a <;> simp [Action.run, NecIr.up, NecIr.left, NecIr.right, NecIr.down]

/-! ## The data-bit statement -/

theorem or_bit_testBit (b p q : Nat) (hp : p < 8) (hq : q < 8) :
    ((b ||| ((1 <<< p) % 65536)) % 256).testBit q = (b.testBit q || decide (p = q)) := by
  have h256 : (256 : Nat) = 2 ^ 8 := rfl
  rw [h256, Nat.testBit_mod_two_pow, Nat.testBit_or]
  have hlt : (1 <<< p) % 65536 = 2 ^ p := by
    rw [Nat.one_shiftLeft]
    exact Nat.mod_eq_of_lt (lt_of_lt_of_le (Nat.pow_lt_pow_right (by norm_num) hp) (by norm_num))
  rw [hlt, Nat.testBit_two_pow]
  simp [hq]

theorem setDataBit_idx (n : Nat) (hn : n < 32) :
    (n >>> 3) % 256 = n / 8 ∧ (7 - (n &&& 7)) % 256 = 7 - n % 8 := by
  have h7 : (7 : Nat) = 2 ^ 3 - 1 := rfl
  have h1 : n >>> 3 = n / 8 := by rw [Nat.shiftRight_eq_div_pow]
  have h2 : n &&& 7 = n % 8 := by rw [h7, Nat.and_pow_two_sub_one_eq_mod]
  rw [h1, h2]
  constructor <;> omega

theorem setDataBit_eq (a : Bytes4) (n : Nat) (hn : n < 32) :
    setDataBit a n =
      a.set (n / 8) ((a.get (n / 8) ||| ((1 <<< (7 - n % 8)) % 65536)) % 256) := by
  obtain ⟨h1, h2⟩ := setDataBit_idx n hn
  simp only [setDataBit, h1, h2]

theorem Bytes4.get_set (a : Bytes4) (k k2 v : Nat) (hk : k < 4) (hk2 : k2 < 4) :
    (a.set k v).get k2 = if k2 = k then v else a.get k2 := by
  interval_cases k <;> interval_cases k2 <;> simp [Bytes4.get, Bytes4.set]

/-- Bit view of the data-bit statement: it sets bit `n` and no other. -/
theorem bitAt_setDataBit (a : Bytes4) (n i : Nat) (hn : n < 32) (hi : i < 32) :
    bitAt (setDataBit a n) i = (bitAt a i || decide (i = n)) := by
  rw [setDataBit_eq a n hn]
  unfold bitAt
  rw [Bytes4.get_set a (n / 8) (i / 8) _ (by omega) (by omega)]
  by_cases hk : i / 8 = n / 8
  · rw [if_pos hk, or_bit_testBit _ _ _ (by omega) (by omega), hk]
    congr 1
    have : (7 - n % 8 = 7 - i % 8) ↔ (i = n) := by omega
    simp [this]
  · rw [if_neg hk]
    have : ¬ i = n := by intro h; exact hk (by rw [h])
    simp [this]

/-- The data-bit statement keeps every byte within 8 bits. -/
theorem setDataBit_lt (a : Bytes4) (n : Nat) (hn : n < 32)
    (h : ∀ k, k < 4 → a.get k < 256) : ∀ k, k < 4 → (setDataBit a n).get k < 256 := by
  intro k hk
  rw [setDataBit_eq a n hn, Bytes4.get_set a (n / 8) k _ (by omega) hk]
  split
  · exact Nat.mod_lt _ (by norm_num)
  · exact h k hk

/-! ## Runs of edges -/

theorem edge_marker (g : Nat) (s : State) (h : 50 ≤ g) :
    edge g s =
      ({ s with timerValue := g, msCount := 0, TH0 := 0xFC, TL0 := 0x67,
                pulseCount := -2, bitPattern := Bytes4.zero }, []) := by
  unfold edge
  rw [isr_marker _ h]

/-- A data edge at index `n`: the state before has `pulseCount = n - 1`. -/
theorem edge_data (g : Nat) (s : State) (n : Nat) (hp : s.pulseCount = (n : Int) - 1)
    (hn : n < 32) (hg : g < 50) :
    edge g s =
      ({ s with timerValue := g, msCount := 0, TH0 := 0xFC, TL0 := 0x67,
                pulseCount := (n : Int),
                bitPattern := if 2 ≤ g then setDataBit s.bitPattern n else s.bitPattern },
       []) := by
  have hi : incrChar s.pulseCount = (n : Int) := by rw [hp]; unfold incrChar; omega
  unfold edge
  rw [isr_data _ hg (by simp only [hi]; omega) (by simp only [hi]; omega)]
  simp only [hi, Int.toNat_ofNat]

/-- The edge that completes a frame: the state before has `pulseCount = 31`. -/
theorem edge_complete (g : Nat) (s : State) (hp : s.pulseCount = 31) (hg : g < 50) :
    edge g s =
      match decodeKey s.bitPattern with
      | some a =>
        (a.run { s with timerValue := g, msCount := 0, TH0 := 0xFC, TL0 := 0x67,
                        pulseCount := 0, newKey := s.bitPattern }, [a])
      | none =>
        ({ s with timerValue := g, msCount := 0, TH0 := 0xFC, TL0 := 0x67,
                  pulseCount := 0, newKey := s.bitPattern }, []) := by
  have hi : incrChar s.pulseCount = 32 := by rw [hp]; decide
  unfold edge
  rw [isr_complete _ hg (by simp only [hi]; omega)]

theorem edges_append (gs hs : List Nat) : ∀ s : State,
    edges (gs ++ hs) s =
      ((edges hs (edges gs s).1).1, (edges gs s).2 ++ (edges hs (edges gs s).1).2) := by
  induction gs with
  | nil => intro s; simp [edges]
  | cons g gs ih => intro s; simp [edges, ih, List.append_assoc]

/-- Collecting invariant: from a state whose next edge is data bit `n`, a run
of edges that stays inside the frame calls no helper, leaves `newKey` alone,
advances the index by one per edge and ORs exactly the bits of the gaps that
are at least 2 into the accumulator. -/
theorem edges_collect (gs : List Nat) : ∀ (s : State) (n : Nat),
    s.pulseCount = (n : Int) - 1 → n + gs.length ≤ 32 → (∀ g ∈ gs, g < 50) →
    (edges gs s).2 = [] ∧
    (edges gs s).1.pulseCount = ((n + gs.length : Nat) : Int) - 1 ∧
    (edges gs s).1.newKey = s.newKey ∧
    (∀ i, i < 32 → bitAt (edges gs s).1.bitPattern i
        = (bitAt s.bitPattern i || (decide (n ≤ i) && decide (2 ≤ gs.getD (i - n) 0)))) ∧
    ((∀ k, k < 4 → s.bitPattern.get k < 256) →
      ∀ k, k < 4 → (edges gs s).1.bitPattern.get k < 256) := by
  induction gs with
  | nil =>
    intro s n hp _ _
    simp [edges, hp]
  | cons g gs ih =>
    intro s n hp hlen hall
    have hn : n < 32 := by simp at hlen; omega
    have hg : g < 50 := hall g (by simp)
    have he := edge_data g s n hp hn hg
    have hall2 : ∀ x ∈ gs, x < 50 := fun x hx => hall x (by simp [hx])
    obtain ⟨t1, t2, t3, t4, t5⟩ := ih (edge g s).1 (n + 1)
      (by rw [he]; simp) (by simp at hlen ⊢; omega) hall2
    have e2 : (edge g s).2 = [] := by rw [he]
    have e3 : (edge g s).1.newKey = s.newKey := by rw [he]
    have e4 : (edge g s).1.bitPattern
        = if 2 ≤ g then setDataBit s.bitPattern n else s.bitPattern := by rw [he]
    have hc : edges (g :: gs) s
        = ((edges gs (edge g s).1).1, (edge g s).2 ++ (edges gs (edge g s).1).2) := rfl
    rw [hc]
    refine ⟨?_, ?_, ?_, ?_, ?_⟩
    · simp only [t1, e2, List.append_nil]
    · simp only [t2, List.length_cons]
      push_cast
      ring
    · simp only [t3, e3]
    · intro i hi
      simp only []
      rw [t4 i hi, e4]
      by_cases h2 : 2 ≤ g
      · rw [if_pos h2, bitAt_setDataBit _ _ _ hn hi]
        rcases Nat.lt_trichotomy i n with h | h | h
        · have a1 : ¬ i = n := by omega
          have a2 : ¬ n + 1 ≤ i := by omega
          have a3 : ¬ n ≤ i := by omega
          simp [a1, a2, a3]
        · subst h
          simp [h2]
        · have a1 : ¬ i = n := by omega
          have a2 : n + 1 ≤ i := by omega
          have a3 : n ≤ i := by omega
          have a4 : i - n = (i - (n + 1)) + 1 := by omega
          rw [a4, List.getD_cons_succ]
          simp [a1, a2, a3]
      · rw [if_neg h2]
        rcases Nat.lt_trichotomy i n with h | h | h
        · have a2 : ¬ n + 1 ≤ i := by omega
          have a3 : ¬ n ≤ i := by omega
          simp [a2, a3]
        · subst h
          simp [h2]
        · have a2 : n + 1 ≤ i := by omega
          have a3 : n ≤ i := by omega
          have a4 : i - n = (i - (n + 1)) + 1 := by omega
          rw [a4, List.getD_cons_succ]
          simp [a2, a3]
    · intro hb
      simp only []
      apply t5
      rw [e4]
      split
      · exact setDataBit_lt _ _ hn hb
      · exact hb

/-! ## Bytes and bits -/

theorem decide_eq_bool (p : Prop) [Decidable p] (b : Bool) (h : p ↔ b = true) :
    decide p = b := by
  by_cases hp : p
  · rw [decide_eq_true hp, h.mp hp]
  · have hb : ¬ b = true := fun hb => hp (h.mpr hb)
    rw [decide_eq_false hp]
    cases b
    · rfl
    · exact absurd rfl hb

theorem bitAt_zero (i : Nat) (hi : i < 32) : bitAt Bytes4.zero i = false := by
  unfold bitAt
  have hk : i / 8 < 4 := by omega
  interval_cases i / 8 <;> simp [Bytes4.get, Bytes4.zero]

theorem bitAt_byte (a : Bytes4) (k j : Nat) (hj : j < 8) :
    bitAt a (8 * k + j) = (a.get k).testBit (7 - j) := by
  unfold bitAt
  have h1 : (8 * k + j) / 8 = k := by omega
  have h2 : (8 * k + j) % 8 = j := by omega
  rw [h1, h2]

/-- Two 8-bit bytes at index `k` with the same eight bits are equal. -/
theorem Bytes4.get_eq_of_bitAt (a b : Bytes4) (k : Nat) (ha : a.get k < 256)
    (hb : b.get k < 256) (h : ∀ j, j < 8 → bitAt a (8 * k + j) = bitAt b (8 * k + j)) :
    a.get k = b.get k := by
  apply Nat.eq_of_testBit_eq
  intro q
  by_cases hq : q < 8
  · have := h (7 - q) (by omega)
    rw [bitAt_byte a k (7 - q) (by omega), bitAt_byte b k (7 - q) (by omega)] at this
    have e : 7 - (7 - q) = q := by omega
    rw [e] at this
    exact this
  · have hp : (256 : Nat) ≤ 2 ^ q :=
      le_trans (by norm_num) (Nat.pow_le_pow_right (by norm_num) (not_lt.mp hq))
    rw [Nat.testBit_lt_two_pow (lt_of_lt_of_le ha hp),
      Nat.testBit_lt_two_pow (lt_of_lt_of_le hb hp)]

/-- Two arrays of 8-bit values with the same 32 bits are equal. -/
theorem Bytes4.eq_of_bitAt (a b : Bytes4) (ha : ∀ k, k < 4 → a.get k < 256)
    (hb : ∀ k, k < 4 → b.get k < 256) (h : ∀ i, i < 32 → bitAt a i = bitAt b i) : a = b := by
  have key : ∀ k, k < 4 → a.get k = b.get k := fun k hk =>
    Bytes4.get_eq_of_bitAt a b k (ha k hk) (hb k hk) (fun j hj => h _ (by omega))
  have k0 := key 0 (by norm_num)
  have k1 := key 1 (by norm_num)
  have k2 := key 2 (by norm_num)
  have k3 := key 3 (by norm_num)
  simp only [Bytes4.get] at k0 k1 k2 k3
  cases a
  cases b
  simp_all

/-- Bit `31 - i` of the 32-bit word is bit `i` of the array. -/
theorem word32_testBit (a : Bytes4) (ha : ∀ k, k < 4 → a.get k < 256) (i : Nat)
    (hi : i < 32) : (word32 a).testBit (31 - i) = bitAt a i := by
  have h0 : a.b0 < 2 ^ 8 := ha 0 (by norm_num)
  have h1 : a.b1 < 2 ^ 8 := ha 1 (by norm_num)
  have h2 : a.b2 < 2 ^ 8 := ha 2 (by norm_num)
  have h3 : a.b3 < 2 ^ 8 := ha 3 (by norm_num)
  have hw : word32 a = 2 ^ 8 * (2 ^ 8 * (2 ^ 8 * a.b0 + a.b1) + a.b2) + a.b3 := by
    unfold word32; ring
  rw [hw, Nat.testBit_mul_pow_two_add _ h3]
  unfold bitAt
  have hk : i / 8 < 4 := by omega
  by_cases c3 : 31 - i < 8
  · have e1 : i / 8 = 3 := by omega
    have e2 : 7 - i % 8 = 31 - i := by omega
    rw [if_pos c3, e1, e2]
    rfl
  · rw [if_neg c3, Nat.testBit_mul_pow_two_add _ h2]
    by_cases c2 : 31 - i - 8 < 8
    · have e1 : i / 8 = 2 := by omega
      have e2 : 7 - i % 8 = 31 - i - 8 := by omega
      rw [if_pos c2, e1, e2]
      rfl
    · rw [if_neg c2, Nat.testBit_mul_pow_two_add _ h1]
      by_cases c1 : 31 - i - 8 - 8 < 8
      · have e1 : i / 8 = 1 := by omega
        have e2 : 7 - i % 8 = 31 - i - 8 - 8 := by omega
        rw [if_pos c1, e1, e2]
        rfl
      · have e1 : i / 8 = 0 := by omega
        have e2 : 7 - i % 8 = 31 - i - 8 - 8 - 8 := by omega
        rw [if_neg c1, e1, e2]
        rfl

theorem word32_lt (a : Bytes4) (ha : ∀ k, k < 4 → a.get k < 256) : word32 a < 2 ^ 32 := by
  have h0 : a.b0 < 256 := ha 0 (by norm_num)
  have h1 : a.b1 < 256 := ha 1 (by norm_num)
  have h2 : a.b2 < 256 := ha 2 (by norm_num)
  have h3 : a.b3 < 256 := ha 3 (by norm_num)
  unfold word32
  norm_num
  omega

theorem Bytes4.zero_lt (k : Nat) (hk : k < 4) : Bytes4.zero.get k < 256 := by
  interval_cases k <;> simp [Bytes4.get, Bytes4.zero]

/-- A whole frame: 32 data edges from the post-header state. -/
theorem edges_frame (s : State) (gs : List Nat) (hp : s.pulseCount = -1)
    (hz : s.bitPattern = Bytes4.zero) (hlen : gs.length = 32) (hall : ∀ g ∈ gs, g < 50) :
    (edges gs s).2 = [] ∧ (edges gs s).1.pulseCount = 31 ∧
    (edges gs s).1.newKey = s.newKey ∧
    (∀ i, i < 32 → bitAt (edges gs s).1.bitPattern i = decide (2 ≤ gs.getD i 0)) ∧
    (∀ k, k < 4 → (edges gs s).1.bitPattern.get k < 256) := by
  obtain ⟨t1, t2, t3, t4, t5⟩ := edges_collect gs s 0 (by rw [hp]; rfl) (by omega) hall
  refine ⟨t1, ?_, t3, ?_, ?_⟩
  · rw [t2, hlen]; rfl
  · intro i hi
    rw [t4 i hi, hz, bitAt_zero i hi]
    simp
  · apply t5
    rw [hz]
    exact Bytes4.zero_lt

/-- The discarded header edge: the state before has `pulseCount = -2`. -/
theorem edge_header (g : Nat) (s : State) (hp : s.pulseCount = -2) (hg : g < 50) :
    edge g s =
      ({ s with timerValue := g, msCount := 0, TH0 := 0xFC, TL0 := 0x67,
                pulseCount := -1 }, []) := by
  have hi : incrChar s.pulseCount = -1 := by rw [hp]; decide
  unfold edge
  rw [isr_header _ hg (by simp only [hi]; omega)]
  simp only [hi]

/-- The decode chain finds every table entry. -/
theorem decodeKey_table (k : Bytes4) (c1 c2 c3 : Nat) (a : Action)
    (h : (c1, c2, c3, a) ∈ commandTable) (h1 : k.b1 = c1) (h2 : k.b2 = c2) (h3 : k.b3 = c3) :
    decodeKey k = some a := by
  simp only [commandTable, List.mem_cons, List.mem_singleton, List.not_mem_nil, or_false,
    Prod.mk.injEq] at h
  rcases h with h | h | h | h <;>
  · obtain ⟨e1, e2, e3, e4⟩ := h
    subst e1 e2 e3 e4
    simp [decodeKey, h1, h2, h3]

/-- A frame and its completing edge: the completing edge copies the collected
accumulator into `newKey` and makes the calls of the decode chain; the 32 data
edges make none. -/
theorem edges_frame_complete (s : State) (gs : List Nat) (e : Nat) (hp : s.pulseCount = -1)
    (hz : s.bitPattern = Bytes4.zero) (hlen : gs.length = 32) (hall : ∀ g ∈ gs, g < 50)
    (he : e < 50) :
    (edges (gs ++ [e]) s).2 = (decodeKey (edges gs s).1.bitPattern).toList ∧
    (edges (gs ++ [e]) s).1.newKey = (edges gs s).1.bitPattern ∧
    (edges (gs ++ [e]) s).1.pulseCount = 0 := by
  obtain ⟨t1, t2, _, _, _⟩ := edges_frame s gs hp hz hlen hall
  have hc := edge_complete e (edges gs s).1 t2 he
  rw [edges_append]
  have h1 : edges [e] (edges gs s).1 = edge e (edges gs s).1 := by
    simp [edges]
  rw [h1, t1, hc]
  cases decodeKey (edges gs s).1.bitPattern with
  | none => simp
  | some a =>
    simp only [List.nil_append, Option.toList]
    rw [(Action.run_fields a _).2.1, (Action.run_fields a _).2.2.2.2]
    simp

/-- The full effect of `n` ticks on a counter that is within its range. -/
theorem ticks_eq (n : Nat) : ∀ s : State, s.msCount ≤ 50 → 0 < n →
    ticks n s = { s with msCount := min (s.msCount + n) 50, TH0 := 0xFC, TL0 := 0x67 } := by
  induction n with
  | zero => intro s _ h; omega
  | succ n ih =>
    intro s h _
    have hm := timer0_isr_msCount s
    have h2 : (timer0_isr s).msCount ≤ 50 := by
      rw [hm]; split <;> omega
    rw [ticks]
    rcases Nat.eq_zero_or_pos n with hn | hn
    · subst hn
      simp only [ticks]
      unfold timer0_isr
      by_cases hlt : s.msCount < 50
      · have e1 : (s.msCount + 1) % 256 = s.msCount + 1 := Nat.mod_eq_of_lt (by omega)
        have e2 : min (s.msCount + (0 + 1)) 50 = s.msCount + 1 := by omega
        simp [hlt, e1, e2]
      · have e2 : min (s.msCount + (0 + 1)) 50 = s.msCount := by omega
        simp [hlt, e2]
    · rw [ih _ h2 hn, hm]
      have e : min ((if s.msCount < 50 then s.msCount + 1 else s.msCount) + n) 50
          = min (s.msCount + (n + 1)) 50 := by
        split <;> omega
      rw [e]
      unfold timer0_isr
      by_cases hlt : s.msCount < 50 <;> simp [hlt]

/-- An edge event with elapsed value `g` is what the handlers do when `g`
ticks (at most 50) separate the edge from the previous one. -/
theorem edge_eq_ticks (s : State) (g : Nat) (h0 : s.msCount = 0) (hg : g ≤ 50) :
    externalIntr0_ISR (ticks g s) = edge g s := by
  rcases Nat.eq_zero_or_pos g with h | h
  · subst h
    simp [ticks, edge, externalIntr0_ISR, h0]
  · rw [ticks_eq g s (by omega) h]
    have e : min (s.msCount + g) 50 = g := by omega
    simp [edge, externalIntr0_ISR, e]

/-! ## Facts that hold in every branch of the edge handler -/

theorem isr_sample (s : State) :
    (externalIntr0_ISR s).1.timerValue = s.msCount ∧ (externalIntr0_ISR s).1.msCount = 0 := by
  by_cases h : 50 ≤ s.msCount
  · rw [isr_marker s h]; simp
  · have hlt : s.msCount < 50 := by omega
    by_cases h0 : incrChar s.pulseCount < 0
    · rw [isr_header s hlt h0]; simp
    · by_cases h1 : incrChar s.pulseCount < 32
      · rw [isr_data s hlt (by omega) h1]; simp
      · rw [isr_complete s hlt (by omega)]
        cases decodeKey s.bitPattern with
        | none => simp
        | some a =>
          simp only []
          rw [(Action.run_fields a _).2.2.1, (Action.run_fields a _).2.2.2.1]
          simp

theorem isr_stale_timerValue (s : State) (t : Nat) :
    externalIntr0_ISR { s with timerValue := t } = externalIntr0_ISR s := by
  simp [externalIntr0_ISR]

/-- The calls made by a completing edge are those of the decode chain on the
accumulator. -/
theorem isr_complete_calls (s : State) (h : s.msCount < 50)
    (h32 : 32 ≤ incrChar s.pulseCount) :
    (externalIntr0_ISR s).2 = (decodeKey s.bitPattern).toList := by
  rw [isr_complete s h h32]
  cases decodeKey s.bitPattern <;> rfl

theorem isr_complete_state (s : State) (h : s.msCount < 50)
    (h32 : 32 ≤ incrChar s.pulseCount) :
    (externalIntr0_ISR s).1.newKey = s.bitPattern ∧
    (externalIntr0_ISR s).1.bitPattern = s.bitPattern ∧
    (externalIntr0_ISR s).1.pulseCount = 0 := by
  rw [isr_complete s h h32]
  cases decodeKey s.bitPattern with
  | none => simp
  | some a =>
    simp only []
    rw [(Action.run_fields a _).1, (Action.run_fields a _).2.1, (Action.run_fields a _).2.2.2.2]
    simp

/-! ## Claims -/

/-- C1. Resynchronisation: from every state, the edge handler entered with
`msCount >= 50` leaves `pulseCount = -2` and the four `bitPattern` bytes 0. -/
theorem resync_on_start_marker (s : State) (h : 50 ≤ s.msCount) :
    (externalIntr0_ISR s).1.pulseCount = -2 ∧
    (externalIntr0_ISR s).1.bitPattern.b0 = 0 ∧
    (externalIntr0_ISR s).1.bitPattern.b1 = 0 ∧
    (externalIntr0_ISR s).1.bitPattern.b2 = 0 ∧
    (externalIntr0_ISR s).1.bitPattern.b3 = 0 := by
  rw [isr_marker s h]
  simp [Bytes4.zero]

theorem resync_on_start_marker_witness :
    50 ≤ midFrame.msCount ∧
    (externalIntr0_ISR midFrame).1.pulseCount = -2 ∧
    (externalIntr0_ISR midFrame).1.bitPattern.b0 = 0 ∧
    (externalIntr0_ISR midFrame).1.bitPattern.b1 = 0 ∧
    (externalIntr0_ISR midFrame).1.bitPattern.b2 = 0 ∧
    (externalIntr0_ISR midFrame).1.bitPattern.b3 = 0 :=
  ⟨by decide, resync_on_start_marker midFrame (by decide)⟩

/-- C4. Command recognition: on an edge that completes a frame (elapsed below
50, incremented `pulseCount` at least 32) the helper called is `up`, `left`,
`right` or `down` exactly when bytes 1..3 of the accumulator are the
corresponding code, nothing is called for any other bytes 1..3, at most one
helper is called, and byte 0 has no influence. -/
theorem command_recognition (s : State) (h : s.msCount < 50)
    (h32 : 32 ≤ incrChar s.pulseCount) :
    ((externalIntr0_ISR s).2 = [Action.up] ↔
      (s.bitPattern.b1 = 0xFF ∧ s.bitPattern.b2 = 0x18 ∧ s.bitPattern.b3 = 0xE7)) ∧
    ((externalIntr0_ISR s).2 = [Action.left] ↔
      (s.bitPattern.b1 = 0xFF ∧ s.bitPattern.b2 = 0x10 ∧ s.bitPattern.b3 = 0xEF)) ∧
    ((externalIntr0_ISR s).2 = [Action.right] ↔
      (s.bitPattern.b1 = 0xFF ∧ s.bitPattern.b2 = 0x5A ∧ s.bitPattern.b3 = 0xA5)) ∧
    ((externalIntr0_ISR s).2 = [Action.down] ↔
      (s.bitPattern.b1 = 0xFF ∧ s.bitPattern.b2 = 0x4A ∧ s.bitPattern.b3 = 0xB5)) ∧
    ((externalIntr0_ISR s).2 = [] ↔
      ¬ (s.bitPattern.b1 = 0xFF ∧ s.bitPattern.b2 = 0x18 ∧ s.bitPattern.b3 = 0xE7) ∧
      ¬ (s.bitPattern.b1 = 0xFF ∧ s.bitPattern.b2 = 0x10 ∧ s.bitPattern.b3 = 0xEF) ∧
      ¬ (s.bitPattern.b1 = 0xFF ∧ s.bitPattern.b2 = 0x5A ∧ s.bitPattern.b3 = 0xA5) ∧
      ¬ (s.bitPattern.b1 = 0xFF ∧ s.bitPattern.b2 = 0x4A ∧ s.bitPattern.b3 = 0xB5)) ∧
    (externalIntr0_ISR s).2.length ≤ 1 ∧
    (∀ b0 : Nat,
      (externalIntr0_ISR { s with bitPattern := { s.bitPattern with b0 := b0 } }).2
        = (externalIntr0_ISR s).2) := by
  have hb : ∀ b0 : Nat,
      (externalIntr0_ISR { s with bitPattern := { s.bitPattern with b0 := b0 } }).2
        = (externalIntr0_ISR s).2 := by
    intro b0
    have hc := isr_complete_calls { s with bitPattern := { s.bitPattern with b0 := b0 } } h h32
    rw [hc, isr_complete_calls s h h32]
    rfl
  refine ⟨?_, ?_, ?_, ?_, ?_, ?_, hb⟩ <;>
  · rw [isr_complete_calls s h h32]
    unfold decodeKey
    split_ifs <;> simp_all

theorem command_recognition_witness :
    frameReady.msCount < 50 ∧ 32 ≤ incrChar frameReady.pulseCount ∧
    (externalIntr0_ISR frameReady).2 = [Action.up] :=
  ⟨by decide, by decide,
   (command_recognition frameReady (by decide) (by decide)).1.mpr ⟨rfl, rfl, rfl⟩⟩

/-- C6. Frame completion: from every state, an edge with elapsed below 50
whose incremented `pulseCount` is at least 32 copies the accumulator as it
was before the edge into `newKey` and leaves `pulseCount = 0`, matched or
not; when bytes 1..3 match no table entry no helper is called. -/
theorem frame_completion (s : State) (h : s.msCount < 50)
    (h32 : 32 ≤ incrChar s.pulseCount) :
    (externalIntr0_ISR s).1.newKey = s.bitPattern ∧
    (∀ i, i < 4 → (externalIntr0_ISR s).1.newKey.get i = s.bitPattern.get i) ∧
    (externalIntr0_ISR s).1.pulseCount = 0 ∧
    ((∀ e ∈ commandTable,
        ¬ (s.bitPattern.b1 = e.1 ∧ s.bitPattern.b2 = e.2.1 ∧ s.bitPattern.b3 = e.2.2.1)) →
      (externalIntr0_ISR s).2 = []) := by
  obtain ⟨hk, _, hpc⟩ := isr_complete_state s h h32
  refine ⟨hk, fun i _ => by rw [hk], hpc, ?_⟩
  intro hno
  rw [isr_complete_calls s h h32]
  simp only [commandTable, List.mem_cons, List.mem_singleton, List.not_mem_nil, or_false,
    forall_eq_or_imp, forall_eq] at hno
  unfold decodeKey
  split_ifs <;> simp_all

theorem frame_completion_witness :
    frameUnmatched.msCount < 50 ∧ 32 ≤ incrChar frameUnmatched.pulseCount ∧
    (externalIntr0_ISR frameUnmatched).1.newKey = frameUnmatched.bitPattern ∧
    (externalIntr0_ISR frameUnmatched).1.pulseCount = 0 ∧
    (externalIntr0_ISR frameUnmatched).2 = [] :=
  have r := frame_completion frameUnmatched (by decide) (by decide)
  ⟨by decide, by decide, r.1, r.2.2.1, r.2.2.2 (by decide)⟩

/-- C7. Tick saturation: from a counter value of at most 50, `n` ticks give
`min (c + n) 50`; at 50 every further tick leaves 50, and the 8-bit counter
stays below 256 (no wrap-around). -/
theorem tick_saturation (s : State) (n : Nat) (h : s.msCount ≤ 50) :
    (ticks n s).msCount = min (s.msCount + n) 50 ∧
    (s.msCount = 50 → (ticks n s).msCount = 50) ∧
    (ticks n s).msCount ≤ 50 ∧ (ticks n s).msCount < 256 := by
  have hm := ticks_msCount n s h
  refine ⟨hm, fun h50 => by rw [hm]; omega, by rw [hm]; omega, by rw [hm]; omega⟩

theorem tick_saturation_witness :
    powerOn.msCount ≤ 50 ∧ (ticks 300 powerOn).msCount = min (powerOn.msCount + 300) 50 :=
  ⟨by decide, (tick_saturation powerOn 300 (by decide)).1⟩

/-- C8. Sample-and-reset: in every state and every branch, the edge handler
leaves `timerValue` equal to the `msCount` it was entered with and `msCount`
equal to 0; the branch taken is decided by that entry value alone (the stale
`timerValue` has no influence): start marker when it is at least 50,
otherwise the index after the edge is the incremented one (0 on completion)
and a data edge sets its bit exactly when the entry value is at least 2. -/
theorem sample_and_reset (s : State) :
    (externalIntr0_ISR s).1.timerValue = s.msCount ∧
    (externalIntr0_ISR s).1.msCount = 0 ∧
    (∀ t : Nat, externalIntr0_ISR { s with timerValue := t } = externalIntr0_ISR s) ∧
    (50 ≤ s.msCount →
      (externalIntr0_ISR s).1.pulseCount = -2 ∧
      (externalIntr0_ISR s).1.bitPattern = Bytes4.zero) ∧
    (s.msCount < 50 →
      (externalIntr0_ISR s).1.pulseCount
        = if 32 ≤ incrChar s.pulseCount then 0 else incrChar s.pulseCount) ∧
    (s.msCount < 50 →
      (externalIntr0_ISR s).1.bitPattern
        = if 0 ≤ incrChar s.pulseCount ∧ incrChar s.pulseCount < 32 ∧ 2 ≤ s.msCount
          then setDataBit s.bitPattern (incrChar s.pulseCount).toNat
          else s.bitPattern) := by
  refine ⟨(isr_sample s).1, (isr_sample s).2, isr_stale_timerValue s, ?_, ?_, ?_⟩
  · intro h
    rw [isr_marker s h]
    simp
  · intro hlt
    by_cases h0 : incrChar s.pulseCount < 0
    · rw [isr_header s hlt h0, if_neg (by omega)]
    · by_cases h1 : incrChar s.pulseCount < 32
      · have h3 : ¬ 32 ≤ incrChar s.pulseCount := by omega
        rw [isr_data s hlt (by omega) h1]
        simp [h3]
      · rw [(isr_complete_state s hlt (by omega)).2.2, if_pos (by omega)]
  · intro hlt
    by_cases h0 : incrChar s.pulseCount < 0
    · rw [isr_header s hlt h0, if_neg (by omega)]
    · by_cases h1 : incrChar s.pulseCount < 32
      · rw [isr_data s hlt (by omega) h1]
        by_cases h2 : 2 ≤ s.msCount
        · simp [h2, h1, not_lt.mp h0]
        · simp [h2]
      · rw [(isr_complete_state s hlt (by omega)).2.1, if_neg (by omega)]

/-- C2. Whole-frame bit assembly is MSB-first, byte 0 first: from the
post-header state (`pulseCount = -1`, accumulator zero), after 32 edges with
elapsed values `gs` (each below 50), bit `7 - j` of `bitPattern[k]` is 1
exactly when gap `8 k + j` is at least 2; every byte is below 256, so the
accumulator is the 32-bit word whose `i`-th most significant bit is
`gs[i] >= 2`. -/
theorem frame_bits_msb_first (s : State) (gs : List Nat) (hp : s.pulseCount = -1)
    (hz : s.bitPattern = Bytes4.zero) (hlen : gs.length = 32) (hall : ∀ g ∈ gs, g < 50) :
    (∀ k j, k < 4 → j < 8 →
      (((edges gs s).1.bitPattern.get k).testBit (7 - j) = true ↔ 2 ≤ gs.getD (8 * k + j) 0)) ∧
    (∀ k, k < 4 → (edges gs s).1.bitPattern.get k < 256) ∧
    (∀ i, i < 32 →
      ((word32 (edges gs s).1.bitPattern).testBit (31 - i) = true ↔ 2 ≤ gs.getD i 0)) ∧
    word32 (edges gs s).1.bitPattern < 2 ^ 32 := by
  obtain ⟨_, _, _, t4, t5⟩ := edges_frame s gs hp hz hlen hall
  refine ⟨?_, t5, ?_, word32_lt _ t5⟩
  · intro k j hk hj
    rw [← bitAt_byte _ k j hj, t4 _ (by omega)]
    simp
  · intro i hi
    rw [word32_testBit _ t5 i hi, t4 i hi]
    simp

theorem frame_bits_msb_first_witness :
    (((edges gaps00FF18E7 postHeader).1.bitPattern.get 1).testBit (7 - 0) = true
      ↔ 2 ≤ gaps00FF18E7.getD (8 * 1 + 0) 0) ∧
    (((edges gaps00FF18E7 postHeader).1.bitPattern.get 2).testBit (7 - 2) = true
      ↔ 2 ≤ gaps00FF18E7.getD (8 * 2 + 2) 0) ∧
    word32 (edges gaps00FF18E7 postHeader).1.bitPattern < 2 ^ 32 :=
  have r := frame_bits_msb_first postHeader gaps00FF18E7 (by decide) (by decide) (by decide)
    (by decide)
  ⟨r.1 1 0 (by decide) (by decide), r.1 2 2 (by decide) (by decide), r.2.2.2⟩

/-- C3. End-to-end dispatch: for every byte `b0` and every table entry
`(c1, c2, c3, a)`, from the post-header state, 32 data edges (each below 50)
encoding `b0 c1 c2 c3` MSB-first followed by the completing edge (below 50)
call `a` exactly once over the whole sequence and call nothing else. -/
theorem dispatch_end_to_end (s : State) (b0 c1 c2 c3 : Nat) (a : Action) (gs : List Nat)
    (e : Nat) (hb0 : b0 < 256) (hentry : (c1, c2, c3, a) ∈ commandTable)
    (hp : s.pulseCount = -1) (hz : s.bitPattern = Bytes4.zero) (hlen : gs.length = 32)
    (hall : ∀ g ∈ gs, g < 50) (henc : Encodes gs ⟨b0, c1, c2, c3⟩) (he : e < 50) :
    (edges (gs ++ [e]) s).2 = [a] ∧ (edges gs s).2 = [] ∧
    (edges (gs ++ [e]) s).1.newKey = ⟨b0, c1, c2, c3⟩ := by
  obtain ⟨t1, _, _, t4, t5⟩ := edges_frame s gs hp hz hlen hall
  obtain ⟨f1, f2, _⟩ := edges_frame_complete s gs e hp hz hlen hall he
  have hc : c1 < 256 ∧ c2 < 256 ∧ c3 < 256 := by
    simp only [commandTable, List.mem_cons, List.mem_singleton, List.not_mem_nil, or_false,
      Prod.mk.injEq] at hentry
    rcases hentry with h | h | h | h <;>
    · obtain ⟨e1, e2, e3, _⟩ := h
      subst e1 e2 e3
      decide
  have hlt : ∀ k, k < 4 → (Bytes4.mk b0 c1 c2 c3).get k < 256 := by
    intro k hk
    interval_cases k <;> simp [Bytes4.get, hb0, hc.1, hc.2.1, hc.2.2]
  have hbp : (edges gs s).1.bitPattern = ⟨b0, c1, c2, c3⟩ := by
    apply Bytes4.eq_of_bitAt _ _ t5 hlt
    intro i hi
    rw [t4 i hi]
    exact decide_eq_bool _ _ (henc i hi)
  refine ⟨?_, t1, ?_⟩
  · rw [f1, hbp, decodeKey_table _ c1 c2 c3 a hentry rfl rfl rfl]
    rfl
  · rw [f2, hbp]

theorem dispatch_end_to_end_witness :
    (edges (gaps00FF10EF ++ [40]) postHeader).2 = [Action.left] :=
  (dispatch_end_to_end postHeader 0 0xFF 0x10 0xEF Action.left gaps00FF10EF 40
    (by decide) (by decide) (by decide) (by decide) (by decide) (by decide) (by decide)
    (by decide)).1

/-- C5, as stated, fails. From power-on, after a start marker (50 ms) and the
header edge (13 ms), exactly 32 edges encoding
`11111111 00011000 11100111 00000000` call no helper and leave `newKey` all
zero: the frame is completed only by a further edge. With that further edge
(1 ms) `newKey` is `FF 18 E7 00`, so bytes 1..3 are `18 E7 00` and still no
helper is called: the first eight bits go to byte 0. Counting two discarded
header edges (9 ms, 4 ms) does not help either. -/
theorem bit_ordering_reference_counterexample :
    ((edges ([50, 13] ++ gapsFF18E7xx) powerOn).2 = [] ∧
     (edges ([50, 13] ++ gapsFF18E7xx) powerOn).1.newKey = ⟨0, 0, 0, 0⟩) ∧
    ((edges ([50, 13] ++ gapsFF18E7xx ++ [1]) powerOn).2 = [] ∧
     (edges ([50, 13] ++ gapsFF18E7xx ++ [1]) powerOn).1.newKey = ⟨0xFF, 0x18, 0xE7, 0⟩) ∧
    ((edges ([50, 9, 4] ++ gapsFF18E7xx) powerOn).2 = [] ∧
     (edges ([50, 9, 4] ++ gapsFF18E7xx) powerOn).1.newKey = ⟨0xFF, 0x8C, 0x73, 0x80⟩) := by
  decide

/-- C5, amended. From any state, after a start marker (at least 50) and the
one discarded header edge, 32 edges (each below 50) whose first eight gaps are
arbitrary and whose last 24 encode `11111111 00011000 11100111`, followed by
one further edge below 50, leave `newKey` bytes 1..3 equal to
`(0xFF, 0x18, 0xE7)` and call `up` exactly once and nothing else; the 32 data
edges alone call nothing and leave `newKey` as it was. -/
theorem bit_ordering_reference (s : State) (g0 h e : Nat) (gs : List Nat) (hg0 : 50 ≤ g0)
    (hh : h < 50) (hlen : gs.length = 32) (hall : ∀ g ∈ gs, g < 50)
    (henc : EncodesTail gs 0xFF 0x18 0xE7) (he : e < 50) :
    (edges ([g0, h] ++ gs ++ [e]) s).1.newKey.b1 = 0xFF ∧
    (edges ([g0, h] ++ gs ++ [e]) s).1.newKey.b2 = 0x18 ∧
    (edges ([g0, h] ++ gs ++ [e]) s).1.newKey.b3 = 0xE7 ∧
    (edges ([g0, h] ++ gs ++ [e]) s).2 = [Action.up] ∧
    (edges ([g0, h] ++ gs) s).2 = [] ∧
    (edges ([g0, h] ++ gs) s).1.newKey = s.newKey := by
  have hm := edge_marker g0 s hg0
  have hhd := edge_header h (edge g0 s).1 (by rw [hm]) hh
  have hpre : edges [g0, h] s = ((edge h (edge g0 s).1).1, []) := by
    have e2 : edges [g0, h] s
        = ((edge h (edge g0 s).1).1, (edge g0 s).2 ++ ((edge h (edge g0 s).1).2 ++ [])) := rfl
    have a1 : (edge g0 s).2 = [] := by rw [hm]
    have a2 : (edge h (edge g0 s).1).2 = [] := by rw [hhd]
    rw [e2, a1, a2]
    rfl
  have hp : (edges [g0, h] s).1.pulseCount = -1 := by rw [hpre, hhd]
  have hz : (edges [g0, h] s).1.bitPattern = Bytes4.zero := by rw [hpre, hhd, hm]
  have hk : (edges [g0, h] s).1.newKey = s.newKey := by rw [hpre, hhd, hm]
  have ht : (edges [g0, h] s).2 = [] := by rw [hpre]
  obtain ⟨t1, _, t3, t4, t5⟩ := edges_frame _ gs hp hz hlen hall
  obtain ⟨f1, f2, _⟩ := edges_frame_complete _ gs e hp hz hlen hall he
  have hlt : ∀ k, k < 4 → (Bytes4.mk 0 0xFF 0x18 0xE7).get k < 256 := by decide
  have hbyte : ∀ k, 1 ≤ k → k < 4 →
      (edges gs (edges [g0, h] s).1).1.bitPattern.get k = (Bytes4.mk 0 0xFF 0x18 0xE7).get k := by
    intro k hk1 hk4
    apply Bytes4.get_eq_of_bitAt _ _ k (t5 k hk4) (hlt k hk4)
    intro j hj
    rw [t4 _ (by omega)]
    exact decide_eq_bool _ _ (henc (8 * k + j) (by omega) (by omega))
  have b1 := hbyte 1 (by norm_num) (by norm_num)
  have b2 := hbyte 2 (by norm_num) (by norm_num)
  have b3 := hbyte 3 (by norm_num) (by norm_num)
  simp only [Bytes4.get] at b1 b2 b3
  have hd : decodeKey (edges gs (edges [g0, h] s).1).1.bitPattern = some Action.up := by
    simp [decodeKey, b1, b2, b3]
  rw [List.append_assoc, edges_append [g0, h] (gs ++ [e]) s, edges_append [g0, h] gs s]
  simp only [ht, List.nil_append]
  refine ⟨?_, ?_, ?_, ?_, t1, ?_⟩
  · rw [f2, b1]
  · rw [f2, b2]
  · rw [f2, b3]
  · rw [f1, hd]; rfl
  · rw [t3, hk]

theorem bit_ordering_reference_witness :
    (edges ([50, 13] ++ gaps00FF18E7 ++ [40]) powerOn).1.newKey.b1 = 0xFF ∧
    (edges ([50, 13] ++ gaps00FF18E7 ++ [40]) powerOn).1.newKey.b2 = 0x18 ∧
    (edges ([50, 13] ++ gaps00FF18E7 ++ [40]) powerOn).1.newKey.b3 = 0xE7 ∧
    (edges ([50, 13] ++ gaps00FF18E7 ++ [40]) powerOn).2 = [Action.up] :=
  have r := bit_ordering_reference powerOn 50 13 40 gaps00FF18E7 (by decide) (by decide)
    (by decide) (by decide) (by decide) (by decide)
  ⟨r.1, r.2.1, r.2.2.1, r.2.2.2.1⟩

/-- C9, as stated, fails. From power-on, after the start marker (50 ms) and one
further edge (13 ms), the second edge after the marker (2 ms) already sets bit
7 of `bitPattern[0]`, so the accumulator is not zero after two edges; and when
that second edge is a 0 bit, the third edge after the marker (2 ms) sets bit 6
and leaves bit 7 clear. -/
theorem header_skip_counterexample :
    (edges [50, 13, 2] powerOn).1.bitPattern = ⟨0x80, 0, 0, 0⟩ ∧
    (edges [50, 13, 2] powerOn).1.bitPattern ≠ Bytes4.zero ∧
    (edges [50, 13, 0, 2] powerOn).1.bitPattern = ⟨0x40, 0, 0, 0⟩ ∧
    ((edges [50, 13, 0, 2] powerOn).1.bitPattern.b0).testBit 7 = false := by
  decide

/-- C9, amended. After a start-marker edge (at least 50) from any state,
exactly one further edge is discarded: the marker edge leaves `pulseCount = -2`
and the next edge (below 50, whatever its value) performs no bit action, calls
nothing, and leaves `bitPattern` all zero with `pulseCount = -1`; the first
data bit (bit 7 of `bitPattern[0]`) is decided by the second edge after the
start marker. -/
theorem header_skip (s : State) (g0 g1 g2 : Nat) (h0 : 50 ≤ g0) (h1 : g1 < 50)
    (h2 : g2 < 50) :
    (edges [g0] s).1.pulseCount = -2 ∧
    (edges [g0, g1] s).1.pulseCount = -1 ∧
    (edges [g0, g1] s).1.bitPattern = Bytes4.zero ∧
    (edges [g0, g1] s).2 = [] ∧
    (edges [g0, g1, g2] s).1.pulseCount = 0 ∧
    (edges [g0, g1, g2] s).1.bitPattern = (if 2 ≤ g2 then ⟨0x80, 0, 0, 0⟩ else Bytes4.zero) ∧
    (((edges [g0, g1, g2] s).1.bitPattern.b0).testBit 7 = true ↔ 2 ≤ g2) := by
  have hm := edge_marker g0 s h0
  have hhd := edge_header g1 (edge g0 s).1 (by rw [hm]) h1
  have hd := edge_data g2 (edge g1 (edge g0 s).1).1 0 (by rw [hhd]; rfl) (by norm_num) h2
  have hset : setDataBit Bytes4.zero 0 = ⟨0x80, 0, 0, 0⟩ := by decide
  have hbp : (edge g1 (edge g0 s).1).1.bitPattern = Bytes4.zero := by rw [hhd, hm]
  rw [hbp, hset] at hd
  have e1 : edges [g0] s = ((edge g0 s).1, (edge g0 s).2 ++ []) := rfl
  have e2 : edges [g0, g1] s
      = ((edge g1 (edge g0 s).1).1, (edge g0 s).2 ++ ((edge g1 (edge g0 s).1).2 ++ [])) := rfl
  have e3 : edges [g0, g1, g2] s
      = ((edge g2 (edge g1 (edge g0 s).1).1).1,
         (edge g0 s).2 ++ ((edge g1 (edge g0 s).1).2
           ++ ((edge g2 (edge g1 (edge g0 s).1).1).2 ++ []))) := rfl
  rw [e1, e2, e3]
  refine ⟨by rw [hm], by rw [hhd], hbp, by rw [hhd, hm]; rfl, by rw [hd]; rfl, by rw [hd], ?_⟩
  rw [hd]
  by_cases c : 2 ≤ g2
  · simp only [c, if_true, iff_true]; decide
  · simp only [c, if_false, iff_false]; decide

theorem header_skip_witness :
    (edges [50, 13] midFrame).1.bitPattern = Bytes4.zero ∧
    (edges [50, 13, 3] midFrame).1.bitPattern = ⟨0x80, 0, 0, 0⟩ :=
  have r := header_skip midFrame 50 13 3 (by decide) (by decide) (by decide)
  ⟨r.2.2.1, r.2.2.2.2.2.1⟩

/-- C10, as stated, fails. The edge that completes the frame of `frameStale`
(elapsed 1, incremented index 32) leaves the accumulator `00 FF 10 EF`, not
zero. -/
theorem accumulator_lifecycle_counterexample :
    frameStale.msCount < 50 ∧ 32 ≤ incrChar frameStale.pulseCount ∧
    (externalIntr0_ISR frameStale).1.bitPattern = ⟨0, 0xFF, 0x10, 0xEF⟩ ∧
    (externalIntr0_ISR frameStale).1.bitPattern.b1 ≠ 0 := by
  decide

/-- C10, amended. An edge that completes a frame (elapsed below 50,
incremented `pulseCount` at least 32) copies the accumulator into `newKey`
and leaves the accumulator itself unchanged; the accumulator is cleared by the
next start-marker edge (elapsed at least 50). -/
theorem accumulator_lifecycle (s : State) (g : Nat) (h : s.msCount < 50)
    (h32 : 32 ≤ incrChar s.pulseCount) (hg : 50 ≤ g) :
    (externalIntr0_ISR s).1.newKey = s.bitPattern ∧
    (externalIntr0_ISR s).1.bitPattern = s.bitPattern ∧
    (edge g (externalIntr0_ISR s).1).1.bitPattern = Bytes4.zero := by
  obtain ⟨hk, hb, _⟩ := isr_complete_state s h h32
  refine ⟨hk, hb, ?_⟩
  rw [edge_marker g _ hg]

theorem accumulator_lifecycle_witness :
    (externalIntr0_ISR frameStale).1.bitPattern = frameStale.bitPattern ∧
    (edge 50 (externalIntr0_ISR frameStale).1).1.bitPattern = Bytes4.zero :=
  have r := accumulator_lifecycle frameStale 50 (by decide) (by decide) (by decide)
  ⟨r.2.1, r.2.2⟩

/-! ## The edge handler as a function of what it reads -/

theorem isr_pulseCount (s : State) :
    (externalIntr0_ISR s).1.pulseCount
      = if 50 ≤ s.msCount then -2
        else if 32 ≤ incrChar s.pulseCount then 0 else incrChar s.pulseCount := by
  by_cases h : 50 ≤ s.msCount
  · rw [isr_marker s h, if_pos h]
  · have hlt : s.msCount < 50 := by omega
    rw [if_neg h]
    by_cases h0 : incrChar s.pulseCount < 0
    · rw [isr_header s hlt h0, if_neg (by omega)]
    · by_cases h1 : incrChar s.pulseCount < 32
      · have h3 : ¬ 32 ≤ incrChar s.pulseCount := by omega
        rw [isr_data s hlt (by omega) h1, if_neg h3]
      · rw [(isr_complete_state s hlt (by omega)).2.2, if_pos (by omega)]

theorem isr_bitPattern (s : State) :
    (externalIntr0_ISR s).1.bitPattern
      = if 50 ≤ s.msCount then Bytes4.zero
        else if 0 ≤ incrChar s.pulseCount ∧ incrChar s.pulseCount < 32 ∧ 2 ≤ s.msCount
          then setDataBit s.bitPattern (incrChar s.pulseCount).toNat
          else s.bitPattern := by
  by_cases h : 50 ≤ s.msCount
  · rw [isr_marker s h, if_pos h]
  · have hlt : s.msCount < 50 := by omega
    rw [if_neg h]
    by_cases h0 : incrChar s.pulseCount < 0
    · rw [isr_header s hlt h0, if_neg (by omega)]
    · by_cases h1 : incrChar s.pulseCount < 32
      · rw [isr_data s hlt (by omega) h1]
        by_cases h2 : 2 ≤ s.msCount
        · simp [h2, h1, not_lt.mp h0]
        · simp [h2]
      · rw [(isr_complete_state s hlt (by omega)).2.1, if_neg (by omega)]

theorem isr_calls (s : State) :
    (externalIntr0_ISR s).2
      = if s.msCount < 50 ∧ 32 ≤ incrChar s.pulseCount then (decodeKey s.bitPattern).toList
        else [] := by
  by_cases h : 50 ≤ s.msCount
  · rw [isr_marker s h, if_neg (by omega)]
  · have hlt : s.msCount < 50 := by omega
    by_cases h0 : incrChar s.pulseCount < 0
    · rw [isr_header s hlt h0, if_neg (by omega)]
    · by_cases h1 : incrChar s.pulseCount < 32
      · have h3 : ¬ (s.msCount < 50 ∧ 32 ≤ incrChar s.pulseCount) := by omega
        rw [isr_data s hlt (by omega) h1]
        simp only [if_neg h3]
      · rw [isr_complete_calls s hlt (by omega), if_pos ⟨hlt, by omega⟩]

theorem isr_newKey (s : State) :
    (externalIntr0_ISR s).1.newKey
      = if s.msCount < 50 ∧ 32 ≤ incrChar s.pulseCount then s.bitPattern else s.newKey := by
  by_cases h : 50 ≤ s.msCount
  · rw [isr_marker s h, if_neg (by omega)]
  · have hlt : s.msCount < 50 := by omega
    by_cases h0 : incrChar s.pulseCount < 0
    · rw [isr_header s hlt h0, if_neg (by omega)]
    · by_cases h1 : incrChar s.pulseCount < 32
      · have h3 : ¬ (s.msCount < 50 ∧ 32 ≤ incrChar s.pulseCount) := by omega
        rw [isr_data s hlt (by omega) h1]
        simp only [if_neg h3]
      · rw [(isr_complete_state s hlt (by omega)).1, if_pos ⟨hlt, by omega⟩]

/-! ## Runs of interrupts -/

theorem run_append (xs ys : List Event) : ∀ s : State,
    run (xs ++ ys) s = ((run ys (run xs s).1).1, (run xs s).2 ++ (run ys (run xs s).1).2) := by
  induction xs with
  | nil => intro s; simp [run]
  | cons x xs ih => intro s; simp [run, ih, List.append_assoc]

theorem run_ticks (n : Nat) : ∀ s : State,
    run (List.replicate n Event.tick) s = (ticks n s, []) := by
  induction n with
  | zero => intro s; rfl
  | succ n ih =>
    intro s
    rw [List.replicate_succ]
    simp only [run, step, ih, ticks, List.append_nil]

theorem ticks_ge (n : Nat) : ∀ s : State, min (s.msCount + n) 50 ≤ (ticks n s).msCount := by
  induction n with
  | zero => intro s; simp [ticks]
  | succ n ih =>
    intro s
    have hm := timer0_isr_msCount s
    have h := ih (timer0_isr s)
    rw [hm] at h
    rw [ticks]
    split at h <;> omega

theorem timer0_isr_keeps (s : State) :
    (timer0_isr s).pulseCount = s.pulseCount ∧ (timer0_isr s).bitPattern = s.bitPattern ∧
    (timer0_isr s).newKey = s.newKey ∧ (timer0_isr s).timerValue = s.timerValue := by
  unfold timer0_isr
  by_cases h : s.msCount < 50 <;> simp [h]

theorem step_inRanges (s : State) (ev : Event) (h : InRanges s) : InRanges (step s ev).1 := by
  obtain ⟨h1, h2, h3, h4⟩ := h
  cases ev with
  | tick =>
    obtain ⟨k1, _, _, k4⟩ := timer0_isr_keeps s
    have hm := timer0_isr_msCount s
    refine ⟨?_, ?_, ?_, ?_⟩
    · show (timer0_isr s).msCount ≤ 50
      rw [hm]; split <;> omega
    · show (timer0_isr s).timerValue ≤ 50
      rw [k4]; exact h2
    · show -2 ≤ (timer0_isr s).pulseCount
      rw [k1]; exact h3
    · show (timer0_isr s).pulseCount ≤ 31
      rw [k1]; exact h4
  | edge =>
    have hi : incrChar s.pulseCount = s.pulseCount + 1 := by unfold incrChar; omega
    refine ⟨?_, ?_, ?_, ?_⟩
    · show (externalIntr0_ISR s).1.msCount ≤ 50
      rw [(isr_sample s).2]; omega
    · show (externalIntr0_ISR s).1.timerValue ≤ 50
      rw [(isr_sample s).1]; exact h1
    · show -2 ≤ (externalIntr0_ISR s).1.pulseCount
      rw [isr_pulseCount s, hi]
      split_ifs <;> omega
    · show (externalIntr0_ISR s).1.pulseCount ≤ 31
      rw [isr_pulseCount s, hi]
      split_ifs <;> omega

theorem run_inRanges (evs : List Event) : ∀ s : State, InRanges s → InRanges (run evs s).1 := by
  induction evs with
  | nil => intro s h; exact h
  | cons ev evs ih =>
    intro s h
    exact ih _ (step_inRanges s ev h)

theorem powerOn_inRanges : InRanges powerOn := by decide

theorem step_agree (s t : State) (ev : Event) (h : Agree s t) :
    (step s ev).2 = (step t ev).2 ∧ Agree (step s ev).1 (step t ev).1 := by
  obtain ⟨hp, hb, hm⟩ := h
  cases ev with
  | tick =>
    refine ⟨rfl, ?_, ?_, ?_⟩
    · show (timer0_isr s).pulseCount = (timer0_isr t).pulseCount
      rw [(timer0_isr_keeps s).1, (timer0_isr_keeps t).1, hp]
    · show (timer0_isr s).bitPattern = (timer0_isr t).bitPattern
      rw [(timer0_isr_keeps s).2.1, (timer0_isr_keeps t).2.1, hb]
    · show (timer0_isr s).msCount = (timer0_isr t).msCount
      rw [timer0_isr_msCount s, timer0_isr_msCount t, hm]
  | edge =>
    refine ⟨?_, ?_, ?_, ?_⟩
    · show (externalIntr0_ISR s).2 = (externalIntr0_ISR t).2
      rw [isr_calls s, isr_calls t, hp, hb, hm]
    · show (externalIntr0_ISR s).1.pulseCount = (externalIntr0_ISR t).1.pulseCount
      rw [isr_pulseCount s, isr_pulseCount t, hp, hm]
    · show (externalIntr0_ISR s).1.bitPattern = (externalIntr0_ISR t).1.bitPattern
      rw [isr_bitPattern s, isr_bitPattern t, hp, hb, hm]
    · show (externalIntr0_ISR s).1.msCount = (externalIntr0_ISR t).1.msCount
      rw [(isr_sample s).2, (isr_sample t).2]

theorem run_agree (evs : List Event) : ∀ s t : State, Agree s t →
    (run evs s).2 = (run evs t).2 ∧ Agree (run evs s).1 (run evs t).1 := by
  induction evs with
  | nil => intro s t h; exact ⟨rfl, h⟩
  | cons ev evs ih =>
    intro s t h
    obtain ⟨c, a⟩ := step_agree s t ev h
    obtain ⟨c2, a2⟩ := ih _ _ a
    refine ⟨?_, a2⟩
    show (step s ev).2 ++ (run evs (step s ev).1).2 = (step t ev).2 ++ (run evs (step t ev).1).2
    rw [c, c2]

/-! ## Claims on runs of interrupts -/

/-- C12. Self-healing: for any two states with `msCount >= 50` (whatever their
`pulseCount`, `bitPattern`, `newKey`, `timerValue`) and any sequence of tick
and edge events that begins with an edge, the two runs call the same helpers
in the same order and end with the same `pulseCount`, `bitPattern` and
`msCount`. -/
theorem self_healing (s1 s2 : State) (evs : List Event) (h1 : 50 ≤ s1.msCount)
    (h2 : 50 ≤ s2.msCount) :
    (run (Event.edge :: evs) s1).2 = (run (Event.edge :: evs) s2).2 ∧
    (run (Event.edge :: evs) s1).1.pulseCount = (run (Event.edge :: evs) s2).1.pulseCount ∧
    (run (Event.edge :: evs) s1).1.bitPattern = (run (Event.edge :: evs) s2).1.bitPattern ∧
    (run (Event.edge :: evs) s1).1.msCount = (run (Event.edge :: evs) s2).1.msCount := by
  have a : Agree (externalIntr0_ISR s1).1 (externalIntr0_ISR s2).1 := by
    rw [isr_marker s1 h1, isr_marker s2 h2]
    exact ⟨rfl, rfl, rfl⟩
  have c1 : (externalIntr0_ISR s1).2 = [] := by rw [isr_marker s1 h1]
  have c2 : (externalIntr0_ISR s2).2 = [] := by rw [isr_marker s2 h2]
  obtain ⟨c, hp, hb, hm⟩ := run_agree evs _ _ a
  have e1 : run (Event.edge :: evs) s1
      = ((run evs (externalIntr0_ISR s1).1).1,
         (externalIntr0_ISR s1).2 ++ (run evs (externalIntr0_ISR s1).1).2) := rfl
  have e2 : run (Event.edge :: evs) s2
      = ((run evs (externalIntr0_ISR s2).1).1,
         (externalIntr0_ISR s2).2 ++ (run evs (externalIntr0_ISR s2).1).2) := rfl
  rw [e1, e2, c1, c2]
  exact ⟨by rw [List.nil_append, List.nil_append, c], hp, hb, hm⟩

theorem self_healing_witness :
    (run [Event.edge, Event.tick, Event.edge, Event.tick, Event.tick, Event.edge] midFrame).2
      = (run [Event.edge, Event.tick, Event.edge, Event.tick, Event.tick, Event.edge]
          framePending).2 ∧
    (run [Event.edge, Event.tick, Event.edge, Event.tick, Event.tick, Event.edge]
        midFrame).1.bitPattern
      = (run [Event.edge, Event.tick, Event.edge, Event.tick, Event.tick, Event.edge]
          framePending).1.bitPattern :=
  have r := self_healing midFrame framePending
    [Event.tick, Event.edge, Event.tick, Event.tick, Event.edge] (by decide) (by decide)
  ⟨r.1, r.2.2.1⟩

/-- C13. Elapsed-time range: in every state reached from power-on by whole
tick and edge events, `msCount <= 50` and `timerValue <= 50`; the value the
next edge samples is at most 50, so its start-marker test `>= 50` holds
exactly when the sampled value equals 50. -/
theorem elapsed_range_invariant (evs : List Event) :
    (run evs powerOn).1.msCount ≤ 50 ∧
    (run evs powerOn).1.timerValue ≤ 50 ∧
    (externalIntr0_ISR (run evs powerOn).1).1.timerValue ≤ 50 ∧
    (50 ≤ (externalIntr0_ISR (run evs powerOn).1).1.timerValue
      ↔ (externalIntr0_ISR (run evs powerOn).1).1.timerValue = 50) := by
  obtain ⟨h1, h2, _, _⟩ := run_inRanges evs powerOn powerOn_inRanges
  have ht := (isr_sample (run evs powerOn).1).1
  refine ⟨h1, h2, by rw [ht]; exact h1, ?_⟩
  rw [ht]
  omega

/-- C16. Pulse index range: in every state reached from power-on by tick and
edge events, `-2 <= pulseCount <= 31`; hence `++pulseCount` does not overflow
(it is `pulseCount + 1`, at most 32), the byte index `pulseCount >> 3` is at
most 3 whenever the data branch uses it, and the incremented index is at least
32 (the completion test) exactly when it equals 32. -/
theorem pulse_index_range_invariant (evs : List Event) :
    -2 ≤ (run evs powerOn).1.pulseCount ∧
    (run evs powerOn).1.pulseCount ≤ 31 ∧
    incrChar (run evs powerOn).1.pulseCount = (run evs powerOn).1.pulseCount + 1 ∧
    (0 ≤ incrChar (run evs powerOn).1.pulseCount →
      incrChar (run evs powerOn).1.pulseCount < 32 →
      ((incrChar (run evs powerOn).1.pulseCount).toNat >>> 3) % 256 ≤ 3) ∧
    (32 ≤ incrChar (run evs powerOn).1.pulseCount
      ↔ incrChar (run evs powerOn).1.pulseCount = 32) := by
  obtain ⟨_, _, h3, h4⟩ := run_inRanges evs powerOn powerOn_inRanges
  have hi : incrChar (run evs powerOn).1.pulseCount = (run evs powerOn).1.pulseCount + 1 := by
    unfold incrChar; omega
  refine ⟨h3, h4, hi, ?_, ?_⟩
  · intro a b
    have hn : (incrChar (run evs powerOn).1.pulseCount).toNat < 32 := by omega
    rw [(setDataBit_idx _ hn).1]
    omega
  · rw [hi]
    omega

/-- C17. Dispatch only on completion: from every state, an edge calls a
helper, or changes `newKey`, only if the sampled elapsed value is below 50 and
the incremented `pulseCount` is at least 32. An edge with elapsed at least 50
calls nothing and leaves `newKey` unchanged, also when a fully collected frame
is pending (`pulseCount = 31`): that frame is dropped and the decoder
restarts with `pulseCount = -2` and a zero accumulator. -/
theorem dispatch_only_on_completion (s : State) :
    ((externalIntr0_ISR s).2 ≠ [] → s.msCount < 50 ∧ 32 ≤ incrChar s.pulseCount) ∧
    ((externalIntr0_ISR s).1.newKey ≠ s.newKey →
      s.msCount < 50 ∧ 32 ≤ incrChar s.pulseCount) ∧
    (50 ≤ s.msCount → (externalIntr0_ISR s).2 = [] ∧ (externalIntr0_ISR s).1.newKey = s.newKey) ∧
    (50 ≤ s.msCount → s.pulseCount = 31 →
      (externalIntr0_ISR s).2 = [] ∧ (externalIntr0_ISR s).1.newKey = s.newKey ∧
      (externalIntr0_ISR s).1.pulseCount = -2 ∧
      (externalIntr0_ISR s).1.bitPattern = Bytes4.zero) := by
  refine ⟨?_, ?_, ?_, ?_⟩
  · intro h
    by_contra hc
    exact h (by rw [isr_calls s, if_neg hc])
  · intro h
    by_contra hc
    exact h (by rw [isr_newKey s, if_neg hc])
  · intro h
    rw [isr_marker s h]
    exact ⟨rfl, rfl⟩
  · intro h _
    rw [isr_marker s h]
    exact ⟨rfl, rfl, rfl, rfl⟩

/-- C18. Timeout by saturation: from every state and for every `n >= 50`, `n`
ticks followed by one edge take the start-marker branch: `pulseCount = -2`,
`bitPattern` all zero, `msCount = 0`, and no helper is called. -/
theorem timeout_by_saturation (s : State) (n : Nat) (h : 50 ≤ n) :
    (run (List.replicate n Event.tick ++ [Event.edge]) s).1.pulseCount = -2 ∧
    (run (List.replicate n Event.tick ++ [Event.edge]) s).1.bitPattern = Bytes4.zero ∧
    (run (List.replicate n Event.tick ++ [Event.edge]) s).1.msCount = 0 ∧
    (run (List.replicate n Event.tick ++ [Event.edge]) s).2 = [] := by
  have hge : 50 ≤ (ticks n s).msCount := le_trans (by omega) (ticks_ge n s)
  have e : run (List.replicate n Event.tick ++ [Event.edge]) s
      = externalIntr0_ISR (ticks n s) := by
    rw [run_append, run_ticks]
    simp [run, step]
  rw [e, isr_marker _ hge]
  exact ⟨rfl, rfl, rfl, rfl⟩

theorem timeout_by_saturation_witness :
    (run (List.replicate 50 Event.tick ++ [Event.edge]) stalled).1.pulseCount = -2 ∧
    (run (List.replicate 50 Event.tick ++ [Event.edge]) stalled).1.bitPattern = Bytes4.zero ∧
    (run (List.replicate 50 Event.tick ++ [Event.edge]) stalled).1.msCount = 0 ∧
    (run (List.replicate 50 Event.tick ++ [Event.edge]) stalled).2 = [] :=
  timeout_by_saturation stalled 50 (by decide)

/-! ## Single data edges and noise -/

/-- On an 8-bit byte the data-bit statement is a plain OR with `2 ^ p`. -/
theorem or_bit_eq (b p : Nat) (hb : b < 256) (hp : p < 8) :
    (b ||| ((1 <<< p) % 65536)) % 256 = b ||| 2 ^ p := by
  have hlt : (1 <<< p) % 65536 = 2 ^ p := by
    rw [Nat.one_shiftLeft]
    exact Nat.mod_eq_of_lt (lt_of_lt_of_le (Nat.pow_lt_pow_right (by norm_num) hp) (by norm_num))
  have h2 : 2 ^ p < 2 ^ 8 := Nat.pow_lt_pow_right (by norm_num) hp
  have hb8 : b < 2 ^ 8 := hb
  rw [hlt]
  exact Nat.mod_eq_of_lt (Nat.or_lt_two_pow hb8 h2)

/-- The decode chain finds nothing when bytes 1..3 are no table entry. -/
theorem decodeKey_none (k : Bytes4)
    (h : ∀ e ∈ commandTable, (k.b1, k.b2, k.b3) ≠ (e.1, e.2.1, e.2.2.1)) :
    decodeKey k = none := by
  simp only [commandTable, List.mem_cons, List.mem_singleton, List.not_mem_nil, or_false,
    forall_eq_or_imp, forall_eq, ne_eq, Prod.mk.injEq] at h
  unfold decodeKey
  split_ifs <;> simp_all

/-- Every table code with one of its 24 bits inverted is no table code. -/
theorem flipCode_not_in_table : ∀ e ∈ commandTable, ∀ j, j < 24 → ∀ e2 ∈ commandTable,
    flipCode e.1 e.2.1 e.2.2.1 j ≠ (e2.1, e2.2.1, e2.2.2.1) := by
  decide

/-- Bits 8..31 of the key-4 code with bit `i` inverted. -/
theorem bitAt_flipCode_left : ∀ i, i < 32 → 8 ≤ i → ∀ m, m < 32 → 8 ≤ m →
    bitAt ⟨0, (flipCode 0xFF 0x10 0xEF (i - 8)).1, (flipCode 0xFF 0x10 0xEF (i - 8)).2.1,
      (flipCode 0xFF 0x10 0xEF (i - 8)).2.2⟩ m
      = (bitAt ⟨0, 0xFF, 0x10, 0xEF⟩ m != decide (m = i)) := by
  decide

theorem flipCode_left_lt : ∀ i, i < 32 → 8 ≤ i →
    (flipCode 0xFF 0x10 0xEF (i - 8)).1 < 256 ∧ (flipCode 0xFF 0x10 0xEF (i - 8)).2.1 < 256 ∧
    (flipCode 0xFF 0x10 0xEF (i - 8)).2.2 < 256 := by
  decide

/-- Bits 8..31 do not depend on byte 0. -/
theorem bitAt_tail (b0 b0' c1 c2 c3 m : Nat) (hm : m < 32) (h8 : 8 ≤ m) :
    bitAt ⟨b0, c1, c2, c3⟩ m = bitAt ⟨b0', c1, c2, c3⟩ m := by
  unfold bitAt
  have h1 : 1 ≤ m / 8 := by omega
  have h2 : m / 8 < 4 := by omega
  interval_cases m / 8 <;> simp [Bytes4.get]

/-- C15. Per-edge bit classification: from every state (accumulator bytes
being 8-bit values), an edge with elapsed below 50 whose incremented index `i`
is in 0..31 leaves `pulseCount = i`, `newKey` unchanged and calls nothing; if
elapsed is at least 2, byte `i / 8` becomes the old byte OR `2 ^ (7 - i % 8)`
and the other bytes are unchanged (so exactly that bit is set and every other
bit of the four bytes is as before); if elapsed is below 2 the accumulator is
unchanged. -/
theorem bit_classification_frame (s : State) (i : Nat) (he : s.msCount < 50)
    (hidx : incrChar s.pulseCount = (i : Int)) (hi : i < 32)
    (hb : ∀ k, k < 4 → s.bitPattern.get k < 256) :
    (externalIntr0_ISR s).1.pulseCount = (i : Int) ∧
    (externalIntr0_ISR s).1.newKey = s.newKey ∧
    (externalIntr0_ISR s).2 = [] ∧
    (2 ≤ s.msCount →
      (externalIntr0_ISR s).1.bitPattern.get (i / 8)
        = s.bitPattern.get (i / 8) ||| 2 ^ (7 - i % 8) ∧
      (∀ k, k < 4 → k ≠ i / 8 →
        (externalIntr0_ISR s).1.bitPattern.get k = s.bitPattern.get k) ∧
      (∀ k q, k < 4 →
        ((externalIntr0_ISR s).1.bitPattern.get k).testBit q
          = ((s.bitPattern.get k).testBit q || (decide (k = i / 8) && decide (q = 7 - i % 8))))) ∧
    (s.msCount < 2 → (externalIntr0_ISR s).1.bitPattern = s.bitPattern) := by
  have h0 : 0 ≤ incrChar s.pulseCount := by rw [hidx]; omega
  have h1 : incrChar s.pulseCount < 32 := by rw [hidx]; omega
  have hn : ¬ (s.msCount < 50 ∧ 32 ≤ incrChar s.pulseCount) := by omega
  have hbp := isr_bitPattern s
  rw [if_neg (by omega : ¬ 50 ≤ s.msCount), hidx, Int.toNat_ofNat] at hbp
  refine ⟨?_, ?_, ?_, ?_, ?_⟩
  · rw [isr_pulseCount s, if_neg (by omega), if_neg (by omega), hidx]
  · rw [isr_newKey s, if_neg hn]
  · rw [isr_calls s, if_neg hn]
  · intro h2
    rw [if_pos ⟨by omega, by omega, h2⟩, setDataBit_eq _ i hi] at hbp
    have hbyte : (externalIntr0_ISR s).1.bitPattern.get (i / 8)
        = s.bitPattern.get (i / 8) ||| 2 ^ (7 - i % 8) := by
      rw [hbp, Bytes4.get_set _ _ _ _ (by omega) (by omega), if_pos rfl]
      exact or_bit_eq _ _ (hb _ (by omega)) (by omega)
    have hother : ∀ k, k < 4 → k ≠ i / 8 →
        (externalIntr0_ISR s).1.bitPattern.get k = s.bitPattern.get k := by
      intro k hk hne
      rw [hbp, Bytes4.get_set _ _ _ _ (by omega) hk, if_neg hne]
    refine ⟨hbyte, hother, ?_⟩
    intro k q hk
    by_cases hki : k = i / 8
    · subst hki
      rw [hbyte, Nat.testBit_or, Nat.testBit_two_pow]
      simp [eq_comm]
    · rw [hother k hk hki]
      simp [hki]
  · intro h2
    rw [if_neg (by omega)] at hbp
    exact hbp

theorem bit_classification_frame_witness :
    ((externalIntr0_ISR dataEdgeTwo).1.bitPattern.get (20 / 8)
        = dataEdgeTwo.bitPattern.get (20 / 8) ||| 2 ^ (7 - 20 % 8)) ∧
    (externalIntr0_ISR dataEdgeOne).1.bitPattern = dataEdgeOne.bitPattern :=
  ⟨((bit_classification_frame dataEdgeTwo 20 (by decide) (by decide) (by decide)
      (by decide)).2.2.2.1 (by decide)).1,
   (bit_classification_frame dataEdgeOne 20 (by decide) (by decide) (by decide)
      (by decide)).2.2.2.2 (by decide)⟩

/-- C20. Single-bit noise in the command bytes: for every table code and every
one of its 24 bits, the code with that bit inverted is none of the four table
codes, so a completing edge on an accumulator holding it in bytes 1..3 calls
no helper, whatever byte 0 is. -/
theorem single_bit_noise_rejected (s : State) (c1 c2 c3 : Nat) (a : Action) (j : Nat)
    (hentry : (c1, c2, c3, a) ∈ commandTable) (hj : j < 24) (h : s.msCount < 50)
    (h32 : 32 ≤ incrChar s.pulseCount)
    (hacc : (s.bitPattern.b1, s.bitPattern.b2, s.bitPattern.b3) = flipCode c1 c2 c3 j) :
    (∀ e ∈ commandTable, flipCode c1 c2 c3 j ≠ (e.1, e.2.1, e.2.2.1)) ∧
    (externalIntr0_ISR s).2 = [] ∧
    (∀ b0 : Nat,
      (externalIntr0_ISR { s with bitPattern := { s.bitPattern with b0 := b0 } }).2 = []) := by
  have hf := flipCode_not_in_table (c1, c2, c3, a) hentry j hj
  have hd : ∀ b0 : Nat, decodeKey { s.bitPattern with b0 := b0 } = none := by
    intro b0
    apply decodeKey_none
    intro e he
    show (s.bitPattern.b1, s.bitPattern.b2, s.bitPattern.b3) ≠ _
    rw [hacc]
    exact hf e he
  have hd0 : decodeKey s.bitPattern = none := hd s.bitPattern.b0
  refine ⟨hf, ?_, ?_⟩
  · rw [isr_complete_calls s h h32, hd0]
    rfl
  · intro b0
    have hc := isr_complete_calls { s with bitPattern := { s.bitPattern with b0 := b0 } } h h32
    rw [hc]
    show (decodeKey { s.bitPattern with b0 := b0 }).toList = []
    rw [hd b0]
    rfl

theorem single_bit_noise_rejected_witness :
    (externalIntr0_ISR frameNoisy).2 = [] :=
  (single_bit_noise_rejected frameNoisy 0xFF 0x4A 0xB5 Action.down 23 (by decide) (by decide)
    (by decide) (by decide) (by decide)).2.1

/-- C11, as stated, fails. `gaps80FF10EF` is the key-4 frame `gaps00FF10EF`
with the single gap 0 corrupted so that its bit flips (1 ms to 2 ms, all other
gaps equal); the decoded bytes `80 FF 10 EF` differ from `00 FF 10 EF`, and
yet `left` is called once: byte 0 is not inspected. -/
theorem corrupted_frame_counterexample :
    Encodes gaps00FF10EF ⟨0, 0xFF, 0x10, 0xEF⟩ ∧
    (¬ 2 ≤ gaps00FF10EF.getD 0 0 ∧ 2 ≤ gaps80FF10EF.getD 0 0) ∧
    gaps80FF10EF.tail = gaps00FF10EF.tail ∧
    (edges (gaps80FF10EF ++ [40]) postHeader).1.newKey = ⟨0x80, 0xFF, 0x10, 0xEF⟩ ∧
    (edges (gaps80FF10EF ++ [40]) postHeader).1.newKey
      ≠ (edges (gaps00FF10EF ++ [40]) postHeader).1.newKey ∧
    (edges (gaps80FF10EF ++ [40]) postHeader).2 = [Action.left] ∧
    (edges (gaps80FF10EF ++ [40]) postHeader).2.count Action.left = 1 := by
  have h1 : (edges (gaps80FF10EF ++ [40]) postHeader).1.newKey = ⟨0x80, 0xFF, 0x10, 0xEF⟩ := by
    set_option maxRecDepth 8192 in decide
  have h2 : (edges (gaps00FF10EF ++ [40]) postHeader).1.newKey = ⟨0, 0xFF, 0x10, 0xEF⟩ := by
    set_option maxRecDepth 8192 in decide
  have h3 : (edges (gaps80FF10EF ++ [40]) postHeader).2 = [Action.left] := by decide
  refine ⟨by decide, by decide, by decide, h1, ?_, h3, ?_⟩
  · rw [h1, h2]
    decide
  · rw [h3]
    decide

/-- C11, amended. For the left frame (gaps `gs` encoding `b0 FF 10 EF`), if a
single one of the 24 data gaps of bytes 1..3 (index `i` in 8..31) is corrupted
so that its bit classification flips, all other classifications being the
same, then from the post-header state the 32 corrupted data edges followed by
the completing edge call `left` zero times, and call no other helper
either. -/
theorem corrupted_frame_rejected (s : State) (b0 : Nat) (gs gs2 : List Nat) (e i : Nat)
    (hp : s.pulseCount = -1) (hz : s.bitPattern = Bytes4.zero)
    (henc : Encodes gs ⟨b0, 0xFF, 0x10, 0xEF⟩)
    (hlen : gs2.length = 32) (hall : ∀ g ∈ gs2, g < 50) (hi8 : 8 ≤ i) (hi : i < 32)
    (hflip : 2 ≤ gs2.getD i 0 ↔ ¬ 2 ≤ gs.getD i 0)
    (hsame : ∀ k, k < 32 → k ≠ i → (2 ≤ gs2.getD k 0 ↔ 2 ≤ gs.getD k 0))
    (he : e < 50) :
    (edges (gs2 ++ [e]) s).2.count Action.left = 0 ∧ (edges (gs2 ++ [e]) s).2 = [] := by
  obtain ⟨_, _, _, t4, t5⟩ := edges_frame s gs2 hp hz hlen hall
  obtain ⟨f1, _, _⟩ := edges_frame_complete s gs2 e hp hz hlen hall he
  obtain ⟨l1, l2, l3⟩ := flipCode_left_lt i hi hi8
  have hbits : ∀ m, m < 32 → 8 ≤ m →
      bitAt (edges gs2 s).1.bitPattern m
        = bitAt ⟨0, (flipCode 0xFF 0x10 0xEF (i - 8)).1, (flipCode 0xFF 0x10 0xEF (i - 8)).2.1,
            (flipCode 0xFF 0x10 0xEF (i - 8)).2.2⟩ m := by
    intro m hm hm8
    rw [t4 m hm, bitAt_flipCode_left i hi hi8 m hm hm8]
    apply decide_eq_bool
    have ho := henc m hm
    rw [bitAt_tail b0 0 _ _ _ m hm hm8] at ho
    by_cases hmi : m = i
    · subst hmi
      rw [hflip, ho]
      cases bitAt ⟨0, 0xFF, 0x10, 0xEF⟩ m <;> simp
    · rw [hsame m hm hmi, ho]
      cases bitAt ⟨0, 0xFF, 0x10, 0xEF⟩ m <;> simp [hmi]
  have hbyte : ∀ k, 1 ≤ k → k < 4 →
      (edges gs2 s).1.bitPattern.get k
        = (Bytes4.mk 0 (flipCode 0xFF 0x10 0xEF (i - 8)).1 (flipCode 0xFF 0x10 0xEF (i - 8)).2.1
            (flipCode 0xFF 0x10 0xEF (i - 8)).2.2).get k := by
    intro k hk1 hk4
    apply Bytes4.get_eq_of_bitAt _ _ k (t5 k hk4)
    · interval_cases k <;> simp [Bytes4.get, l1, l2, l3]
    · intro j hj
      exact hbits _ (by omega) (by omega)
  have b1 := hbyte 1 (by norm_num) (by norm_num)
  have b2 := hbyte 2 (by norm_num) (by norm_num)
  have b3 := hbyte 3 (by norm_num) (by norm_num)
  simp only [Bytes4.get] at b1 b2 b3
  have hd : decodeKey (edges gs2 s).1.bitPattern = none := by
    apply decodeKey_none
    intro en hen
    rw [b1, b2, b3]
    exact flipCode_not_in_table (0xFF, 0x10, 0xEF, Action.left) (by decide) (i - 8) (by omega)
      en hen
  have htr : (edges (gs2 ++ [e]) s).2 = [] := by
    rw [f1, hd]
    rfl
  exact ⟨by rw [htr]; rfl, htr⟩

theorem corrupted_frame_rejected_witness :
    (edges (gaps00FF00EF ++ [40]) postHeader).2.count Action.left = 0 ∧
    (edges (gaps00FF00EF ++ [40]) postHeader).2 = [] :=
  corrupted_frame_rejected postHeader 0 gaps00FF10EF gaps00FF00EF 40 19 (by decide) (by decide)
    (by decide) (by decide) (by decide) (by decide) (by decide) (by decide) (by decide)
    (by decide)

/-! ## One frame, edge by edge -/

/-- An edge below 50 ms at an index inside the frame: the index advances by
one and nothing is called. -/
theorem edge_inside (g : Nat) (t : State) (hg : g < 50) (h1 : -2 ≤ t.pulseCount)
    (h2 : t.pulseCount < 31) :
    (edge g t).1.pulseCount = t.pulseCount + 1 ∧ (edge g t).2 = [] := by
  have hi : incrChar t.pulseCount = t.pulseCount + 1 := by unfold incrChar; omega
  have hp := isr_pulseCount { t with msCount := g }
  have hc := isr_calls { t with msCount := g }
  simp only [] at hp hc
  rw [hi] at hp hc
  rw [if_neg (by omega), if_neg (by omega)] at hp
  rw [if_neg (by omega)] at hc
  exact ⟨hp, hc⟩

/-- Inside one frame the incremented indices count up by one from the index
the run starts with. -/
theorem incrementedIndices_run (gs : List Nat) : ∀ t : State,
    -2 ≤ t.pulseCount → t.pulseCount ≤ 31 → (∀ g ∈ gs, g < 50) →
    (∀ x ∈ incrementedIndices gs t, x < 32) →
    (incrementedIndices gs t).Pairwise (· < ·) ∧
    (∀ x ∈ incrementedIndices gs t, t.pulseCount < x) ∧
    (∀ k, k < gs.length → (incrementedIndices gs t).getD k 0 = t.pulseCount + 1 + (k : Int)) ∧
    t.pulseCount + (gs.length : Int) ≤ 31 := by
  induction gs with
  | nil =>
    intro t _ h2 _ _
    simp [incrementedIndices, h2]
  | cons g gs ih =>
    intro t h1 h2 hall hx
    have hi : incrChar t.pulseCount = t.pulseCount + 1 := by unfold incrChar; omega
    have hcons : incrementedIndices (g :: gs) t
        = incrChar t.pulseCount :: incrementedIndices gs (edge g t).1 := rfl
    rw [hcons] at hx ⊢
    have hhead : t.pulseCount + 1 < 32 := by
      have := hx (incrChar t.pulseCount) (by simp)
      rw [hi] at this
      exact this
    have hg : g < 50 := hall g (by simp)
    have hpc := (edge_inside g t hg h1 (by omega)).1
    obtain ⟨p1, p2, p3, p4⟩ := ih (edge g t).1 (by rw [hpc]; omega) (by rw [hpc]; omega)
      (fun x hxm => hall x (by simp [hxm])) (fun x hxm => hx x (by simp [hxm]))
    rw [hpc] at p2 p3 p4
    refine ⟨?_, ?_, ?_, ?_⟩
    · rw [List.pairwise_cons]
      refine ⟨?_, p1⟩
      intro x hxm
      rw [hi]
      exact p2 x hxm
    · intro x hxm
      rcases List.mem_cons.mp hxm with h | h
      · rw [h, hi]; omega
      · have := p2 x h
        omega
    · intro k hk
      cases k with
      | zero => rw [List.getD_cons_zero, hi]; simp
      | succ k =>
        rw [List.getD_cons_succ, p3 k (by simp at hk; omega)]
        push_cast
        ring
    · simp only [List.length_cons]
      push_cast
      omega

/-- C19. Each bit is written at most once per frame: in a run of edges that
starts with a start marker (`g0 >= 50`) and has no later start marker (every
later gap below 50) and no completing edge (every incremented index below
32), the incremented indices are strictly increasing, hence pairwise distinct,
and distinct indices address distinct (byte, bit) positions; every bit set in
`bitPattern` at the end was set by exactly one edge of the run, one with
elapsed at least 2. -/
theorem bits_written_once (s : State) (g0 : Nat) (gs : List Nat) (h0 : 50 ≤ g0)
    (hall : ∀ g ∈ gs, g < 50)
    (hnc : ∀ x ∈ incrementedIndices gs (edge g0 s).1, x < 32) :
    (incrementedIndices gs (edge g0 s).1).Pairwise (· < ·) ∧
    (incrementedIndices gs (edge g0 s).1).Nodup ∧
    (∀ a b : Nat, a < 32 → b < 32 → (a >>> 3) % 256 = (b >>> 3) % 256 →
      (7 - (a &&& 7)) % 256 = (7 - (b &&& 7)) % 256 → a = b) ∧
    (∀ i, i < 32 → bitAt (edges (g0 :: gs) s).1.bitPattern i = true →
      ∃! k, k < gs.length ∧ (incrementedIndices gs (edge g0 s).1).getD k 0 = (i : Int) ∧
        2 ≤ gs.getD k 0) := by
  have hm := edge_marker g0 s h0
  have hpc0 : (edge g0 s).1.pulseCount = -2 := by rw [hm]
  have hbp0 : (edge g0 s).1.bitPattern = Bytes4.zero := by rw [hm]
  obtain ⟨p1, _, p3, p4⟩ := incrementedIndices_run gs (edge g0 s).1 (by rw [hpc0])
    (by rw [hpc0]; omega) hall hnc
  rw [hpc0] at p3 p4
  refine ⟨p1, ?_, ?_, ?_⟩
  · exact p1.imp (fun h => ne_of_lt h)
  · intro a b ha hb e1 e2
    rw [(setDataBit_idx a ha).1, (setDataBit_idx b hb).1] at e1
    rw [(setDataBit_idx a ha).2, (setDataBit_idx b hb).2] at e2
    omega
  · intro i hi hbit
    have hfin : (edges (g0 :: gs) s).1 = (edges gs (edge g0 s).1).1 := rfl
    rw [hfin] at hbit
    cases gs with
    | nil =>
      have : (edges [] (edge g0 s).1).1 = (edge g0 s).1 := rfl
      rw [this, hbp0, bitAt_zero i hi] at hbit
      exact absurd hbit (by decide)
    | cons h gs2 =>
      have hh : h < 50 := hall h (by simp)
      have hhd := edge_header h (edge g0 s).1 hpc0 hh
      have hpc1 : (edge h (edge g0 s).1).1.pulseCount = ((0 : Nat) : Int) - 1 := by rw [hhd]; rfl
      have hbp1 : (edge h (edge g0 s).1).1.bitPattern = Bytes4.zero := by rw [hhd, hbp0]
      have hlen : 0 + gs2.length ≤ 32 := by
        simp only [List.length_cons] at p4
        push_cast at p4
        omega
      obtain ⟨_, _, _, t4, _⟩ := edges_collect gs2 (edge h (edge g0 s).1).1 0 hpc1 hlen
        (fun x hxm => hall x (by simp [hxm]))
      have hfin2 : (edges (h :: gs2) (edge g0 s).1).1 = (edges gs2 (edge h (edge g0 s).1).1).1 :=
        rfl
      rw [hfin2, t4 i hi, hbp1, bitAt_zero i hi] at hbit
      have hge : 2 ≤ gs2.getD i 0 := by
        simpa using hbit
      have hilt : i < gs2.length := by
        by_contra hc
        rw [List.getD_eq_default _ _ (not_lt.mp hc)] at hge
        omega
      refine ⟨i + 1, ⟨by simp; omega, ?_, ?_⟩, ?_⟩
      · rw [p3 (i + 1) (by simp; omega)]
        push_cast
        ring
      · rw [List.getD_cons_succ]
        exact hge
      · rintro k ⟨hk, hidx, _⟩
        rw [p3 k hk] at hidx
        omega

theorem bits_written_once_witness :
    (incrementedIndices [13, 2, 0, 3] (edge 50 midFrame).1).Pairwise (· < ·) ∧
    (incrementedIndices [13, 2, 0, 3] (edge 50 midFrame).1).Nodup :=
  have r := bits_written_once midFrame 50 [13, 2, 0, 3] (by decide) (by decide) (by decide)
  ⟨r.1, r.2.1⟩

end NecIr
